import Mathlib

/-!
# Verification of the grumpr word-corpus query engine

This development gives a shallow embedding, in Lean 4, of the core query
subsystem of the grumpr repository and settles a list of claims about it:

* the 16-ary nibble trie (`src/trie/node.rs`: `Trie::insert`, `Trie::get`);
* the byte-level tree view of a trie (the `bytes()` iterator together with the
  `Node` instance for trie references), over which the search driver runs;
* the `MultiHeadDFA` driver (`src/librarian/search/multi_dfa.rs`);
* the `NestedNode` wrapper (`src/librarian/search/nest.rs`);
* the Thompson NFA builder of the external `regex_automata` crate at the level
  used by `src/librarian/search/automata.rs`, and the `levenshtein`,
  `anagram` and `anagram_filter` constructions themselves;
* the `Librarian` query operations (`src/librarian/mod.rs`) and the gram
  canonicalisation (`src/librarian/grams.rs`).

Strings are modelled as lists of byte values (`Str`); characters are
identified with single-byte code points (the ASCII fragment), which is the
regime all concrete scenarios of the specification live in.  Where the source
distinguishes `chars()` from `bytes()` the two coincide on this fragment; the
spots where this matters are flagged in comments.
-/

namespace Grumpr

/-- Byte strings: the contents of a Rust `&str`/`String` viewed through
`bytes()`, and the alphabet the DFAs run on. -/
abbrev Str := List Nat

/-! ## The nibble trie (`src/trie/node.rs`, `src/trie/mod.rs`)

The trie node is `Trie { label: Option<Box<Label<K, V>>>, children: [Option<Box<Trie>>; 16] }`
with `Label { value: Option<V>, notch: K::Notch }`.  A key is a list of
notches; each notch hashes to a byte list and each byte is split into the high
and the low nibble (`src/trie/keys.rs`).  Here a notch is one byte (`Nat`),
so a key is a `Str`.  The 16-slot child array is modelled as a list of
optional children addressed by nibble; `setSlot` pads with `none` when
addressing past the end, a branch that is unreachable for nibbles of actual
bytes (they are `< 16` and the array has 16 slots) but keeps the model total. -/

/-- One trie node: the optional label `(value?, notch)` and the child array. -/
inductive NTrie (V : Type) where
  | mk (label : Option (Option V × Nat)) (children : List (Option (NTrie V)))

namespace NTrie

variable {V : Type}

/-- The label field of a node. -/
def label : NTrie V → Option (Option V × Nat)
  | ⟨l, _⟩ => l

/-- The child-array field of a node. -/
def children : NTrie V → List (Option (NTrie V))
  | ⟨_, c⟩ => c

/-- A freshly allocated node: no label, 16 empty child slots. -/
def empty : NTrie V := ⟨none, List.replicate 16 none⟩

@[simp] theorem label_mk (l : Option (Option V × Nat)) (c : List (Option (NTrie V))) :
    (NTrie.mk l c).label = l := rfl

@[simp] theorem children_mk (l : Option (Option V × Nat)) (c : List (Option (NTrie V))) :
    (NTrie.mk l c).children = c := rfl

end NTrie

/-- Read slot `i` of a child array (out-of-range reads give `none`,
matching an array slot that is absent). -/
def getSlot {α : Type} : List (Option α) → Nat → Option α
  | [], _ => none
  | h :: _, 0 => h
  | _ :: t, n + 1 => getSlot t n

/-- Write slot `i` of a child array, padding with `none` past the end
(the padding branch is unreachable for nibble indices, which are `< 16`). -/
def setSlot {α : Type} : List (Option α) → Nat → Option α → List (Option α)
  | [], 0, x => [x]
  | [], n + 1, x => none :: setSlot [] n x
  | _ :: t, 0, x => x :: t
  | h :: t, n + 1, x => h :: setSlot t n x

theorem getSlot_setSlot {α : Type} (l : List (Option α)) (i j : Nat) (x : Option α) :
    getSlot (setSlot l i x) j = if i = j then x else getSlot l j := by
  induction l generalizing i j with
  | nil =>
    induction i generalizing j with
    | zero => cases j <;> simp [setSlot, getSlot]
    | succ n ih =>
      cases j with
      | zero => simp [setSlot, getSlot]
      | succ m => simpa [setSlot, getSlot, Nat.succ_inj] using ih m
  | cons h t ih =>
    cases i with
    | zero => cases j <;> simp [setSlot, getSlot]
    | succ n =>
      cases j with
      | zero => simp [setSlot, getSlot]
      | succ m => simpa [setSlot, getSlot, Nat.succ_inj] using ih n m

namespace NTrie

variable {V : Type}

/-- `children[index]` for nibble `index`. -/
def childAt (t : NTrie V) (i : Nat) : Option (NTrie V) :=
  getSlot t.children i

/-- `children[index] = Some(node)`. -/
def setChild (t : NTrie V) (i : Nat) (c : NTrie V) : NTrie V :=
  ⟨t.label, setSlot t.children i (some c)⟩

/-- The two nibbles of a byte, high nibble first (`byte >> 4`, `byte & 0x0F`,
`src/trie/keys.rs`). -/
def nibblesOfByte (b : Nat) : List Nat := [b / 16, b % 16]

/-- The nibble stream of a key: each notch in turn, split into nibbles. -/
def encKey (key : Str) : List Nat := key.flatMap nibblesOfByte

/-- `Trie::insert` walked at one notch boundary: if a label is present its
notch is overwritten, otherwise a value-less label is created
(`src/trie/node.rs` lines 60-65). -/
def patchLabel (t : NTrie V) (n : Nat) : NTrie V :=
  match t.label with
  | some (v, _) => ⟨some (v, n), t.children⟩
  | none => ⟨some (none, n), t.children⟩

/-- `Trie::insert` (`src/trie/node.rs` lines 44-72).  For each notch the two
nibble children are traversed or allocated and the label at the notch
boundary is patched; at the terminal node the value is replaced and the
previous value returned.  The first component is `some prev` on the normal
path and `none` exactly when the source would hit the
`expect("Leaf should always be present after inserting segments")` panic
(that is, only for the empty key). -/
def insert (key : Str) (v : V) (t : NTrie V) : Option (Option V) × NTrie V :=
  match key with
  | [] =>
    match t.label with
    | some (old, nch) => (some old, ⟨some (some v, nch), t.children⟩)
    | none => (none, t)
  | n :: rest =>
    let c1 := (t.childAt (n / 16)).getD .empty
    let c2 := (c1.childAt (n % 16)).getD .empty
    let r := insert rest v (patchLabel c2 n)
    (r.1, t.setChild (n / 16) (c1.setChild (n % 16) r.2))

/-- Follow a raw nibble path, returning the node it leads to. -/
def follow (t : NTrie V) : List Nat → Option (NTrie V)
  | [] => some t
  | i :: rest =>
    match t.childAt i with
    | some c => follow c rest
    | none => none

/-- The value stored at the end of a raw nibble path (the label's value
component, if both the node and its label exist). -/
def vget (t : NTrie V) (p : List Nat) : Option V :=
  match t.follow p with
  | some u =>
    match u.label with
    | some (v, _) => v
    | none => none
  | none => none

/-- `Trie::get` (`src/trie/node.rs` lines 74-89): walk every nibble of every
notch of the key, then read the label's value. -/
def get (key : Str) (t : NTrie V) : Option V :=
  vget t (encKey key)

theorem vget_nil (t : NTrie V) :
    vget t [] = match t.label with | some (v, _) => v | none => none := rfl

theorem vget_cons (t : NTrie V) (i : Nat) (p : List Nat) :
    vget t (i :: p) = match t.childAt i with | some c => vget c p | none => none := by
  cases h : t.childAt i <;> simp [vget, follow, h]

theorem childAt_setChild (t : NTrie V) (i j : Nat) (c : NTrie V) :
    (t.setChild i c).childAt j = if i = j then some c else t.childAt j := by
  simp [childAt, setChild, getSlot_setSlot]

theorem label_setChild (t : NTrie V) (i : Nat) (c : NTrie V) :
    (t.setChild i c).label = t.label := rfl

theorem vget_setChild_cons (t : NTrie V) (i j : Nat) (c : NTrie V) (p : List Nat) :
    vget (t.setChild i c) (j :: p) = if i = j then vget c p else vget t (j :: p) := by
  by_cases h : i = j <;> simp [vget_cons, childAt_setChild, h]

theorem vget_setChild_nil (t : NTrie V) (i : Nat) (c : NTrie V) :
    vget (t.setChild i c) [] = vget t [] := rfl

theorem label_patchLabel (t : NTrie V) (n : Nat) :
    ∃ nch, (patchLabel t n).label = some (vget t [], nch) := by
  cases h : t.label with
  | none => exact ⟨n, by simp [patchLabel, h, vget_nil]⟩
  | some vn =>
    obtain ⟨v, m⟩ := vn
    exact ⟨n, by simp [patchLabel, h, vget_nil]⟩

theorem vget_patchLabel (t : NTrie V) (n : Nat) (p : List Nat) :
    vget (patchLabel t n) p = vget t p := by
  cases p with
  | nil =>
    cases h : t.label with
    | none => simp [vget_nil, patchLabel, h]
    | some vn => obtain ⟨v, m⟩ := vn; simp [vget_nil, patchLabel, h]
  | cons i q =>
    have hch : (patchLabel t n).childAt i = t.childAt i := by
      cases h : t.label with
      | none => simp [patchLabel, childAt, children, h]
      | some vn => obtain ⟨v, m⟩ := vn; simp [patchLabel, childAt, children, h]
    simp [vget_cons, hch]

theorem getSlot_replicate_none {α : Type} (n i : Nat) :
    getSlot (List.replicate n (none : Option α)) i = none := by
  induction n generalizing i with
  | zero => simp [getSlot]
  | succ m ih => cases i <;> simp [List.replicate, getSlot, ih]

theorem childAt_empty (i : Nat) : (empty : NTrie V).childAt i = none := by
  show getSlot (List.replicate 16 none) i = none
  exact getSlot_replicate_none 16 i

theorem vget_empty (p : List Nat) : vget (empty : NTrie V) p = none := by
  cases p with
  | nil => rfl
  | cons i q => simp [vget_cons, childAt_empty]

/-- Reading through a child slot, where an absent child behaves like a fresh
empty node (which stores nothing). -/
theorem vget_childD (t : NTrie V) (i : Nat) (q : List Nat) :
    vget ((t.childAt i).getD empty) q = vget t (i :: q) := by
  cases h : t.childAt i with
  | none => simp [vget_cons, h, vget_empty]
  | some c => simp [vget_cons, h]

theorem encKey_nil : encKey [] = [] := rfl

theorem encKey_cons (a : Nat) (t : Str) :
    encKey (a :: t) = a / 16 :: a % 16 :: encKey t := by
  simp [encKey, nibblesOfByte]

/-- The master exchange lemma for `Trie::insert`/`Trie::get`: inserting `key`
changes the stored value exactly at `key`'s nibble path.  The side condition
covers the source's `expect` on the terminal label, which can only fail for
the empty key. -/
theorem vget_insert_aux :
    ∀ (key : Str) (v : V) (t : NTrie V), (key = [] → t.label.isSome) →
      ∀ p, vget (insert key v t).2 p = if p = encKey key then some v else vget t p := by
  intro key
  induction key with
  | nil =>
    intro v t hl p
    have hs := hl rfl
    cases h : t.label with
    | none => rw [h] at hs; simp at hs
    | some vn =>
      obtain ⟨old, nch⟩ := vn
      cases p with
      | nil => simp [insert, h, encKey, vget_nil]
      | cons i q =>
        have h2 : vget (insert ([] : Str) v t).2 (i :: q) = vget t (i :: q) := by
          simp [insert, h, vget_cons, childAt]
        rw [h2, encKey_nil, if_neg (by simp)]
  | cons n rest ih =>
    intro v t _ p
    set c1 := (t.childAt (n / 16)).getD .empty with hc1
    set c2 := (c1.childAt (n % 16)).getD .empty with hc2
    set r := insert rest v (patchLabel c2 n) with hr
    have hres : (insert (n :: rest) v t).2 = t.setChild (n / 16) (c1.setChild (n % 16) r.2) := rfl
    have hlab : rest = [] → (patchLabel c2 n).label.isSome := by
      intro _
      obtain ⟨nch, hnch⟩ := label_patchLabel c2 n
      simp [hnch]
    have hih := ih v (patchLabel c2 n) hlab
    rw [hres, encKey_cons]
    cases p with
    | nil => rw [vget_setChild_nil, if_neg (by simp)]
    | cons j q =>
      rw [vget_setChild_cons]
      by_cases hj : n / 16 = j
      · rw [if_pos hj]
        subst hj
        cases q with
        | nil =>
          rw [vget_setChild_nil]
          have h3 : vget c1 [] = vget t [n / 16] := by rw [hc1, vget_childD]
          rw [h3, if_neg (by simp)]
        | cons k q2 =>
          rw [vget_setChild_cons]
          by_cases hk : n % 16 = k
          · rw [if_pos hk]
            subst hk
            rw [hr, hih q2, vget_patchLabel]
            have h4 : vget c2 q2 = vget t (n / 16 :: n % 16 :: q2) := by
              rw [hc2, vget_childD, hc1, vget_childD]
            by_cases hq : q2 = encKey rest
            · rw [if_pos hq, if_pos (by rw [hq])]
            · rw [if_neg hq, h4,
                if_neg (by intro h; injection h with h1 h2; injection h2 with h3 h4x; exact hq h4x)]
          · rw [if_neg hk]
            have h5 : vget c1 (k :: q2) = vget t (n / 16 :: k :: q2) := by
              rw [hc1, vget_childD]
            rw [h5,
              if_neg (by intro h; injection h with h1 h2; injection h2 with h3 h4x; exact hk h3.symm)]
      · rw [if_neg hj,
          if_neg (by intro h; injection h with h1 h2; exact hj h1.symm)]

/-- The previous value returned by `Trie::insert` is exactly what `get` would
have read at that key beforehand. -/
theorem insert_fst_aux :
    ∀ (key : Str) (v : V) (t : NTrie V), (key = [] → t.label.isSome) →
      (insert key v t).1 = some (vget t (encKey key)) := by
  intro key
  induction key with
  | nil =>
    intro v t hl
    have hs := hl rfl
    cases h : t.label with
    | none => rw [h] at hs; simp at hs
    | some vn =>
      obtain ⟨old, nch⟩ := vn
      simp [insert, h, encKey, vget_nil]
  | cons n rest ih =>
    intro v t _
    have hlab : rest = [] → (patchLabel ((((t.childAt (n / 16)).getD .empty).childAt (n % 16)).getD .empty) n).label.isSome := by
      intro _
      obtain ⟨nch, hnch⟩ := label_patchLabel ((((t.childAt (n / 16)).getD .empty).childAt (n % 16)).getD .empty) n
      simp [hnch]
    have hih := ih v _ hlab
    have h1 : (insert (n :: rest) v t).1
        = (insert rest v (patchLabel ((((t.childAt (n / 16)).getD .empty).childAt (n % 16)).getD .empty) n)).1 := rfl
    rw [h1, hih, vget_patchLabel, vget_childD, vget_childD, encKey_cons]

theorem encKey_inj : ∀ {k k' : Str}, encKey k = encKey k' → k = k' := by
  intro k
  induction k with
  | nil =>
    intro k' h
    cases k' with
    | nil => rfl
    | cons b t =>
      rw [encKey_nil, encKey_cons] at h
      exact absurd h (by simp)
  | cons a t ih =>
    intro k' h
    cases k' with
    | nil =>
      rw [encKey_nil, encKey_cons] at h
      exact absurd h (by simp)
    | cons b t' =>
      rw [encKey_cons, encKey_cons] at h
      injection h with h1 h
      injection h with h2 h3
      have hab : a = b := by omega
      rw [hab, ih h3]

end NTrie

/-- A library-side trie built by inserting a list of key-value pairs in order
(`Trie::from(&Librarian)` performs exactly this loop of `insert` calls). -/
def trieOf {V : Type} (kvs : List (Str × V)) : NTrie V :=
  kvs.foldl (fun t kv => (NTrie.insert kv.1 kv.2 t).2) .empty

theorem vget_trieOf {V : Type} (kvs : List (Str × V))
    (hne : ∀ kv ∈ kvs, kv.1 ≠ []) (p : List Nat) :
    NTrie.vget (trieOf kvs) p
      = (kvs.reverse.find? (fun kv => NTrie.encKey kv.1 == p)).map Prod.snd := by
  induction kvs using List.reverseRecOn with
  | nil => simp [trieOf, NTrie.vget_empty]
  | append_singleton as a ih =>
    have hfold : trieOf (as ++ [a]) = (NTrie.insert a.1 a.2 (trieOf as)).2 := by
      simp [trieOf, List.foldl_append]
    have ha : a.1 ≠ [] := hne a (by simp)
    rw [hfold, NTrie.vget_insert_aux a.1 a.2 (trieOf as) (fun h => absurd h ha) p]
    rw [List.reverse_append]
    simp only [List.reverse_cons, List.reverse_nil, List.nil_append, List.singleton_append]
    by_cases hp : NTrie.encKey a.1 = p
    · rw [List.find?_cons_of_pos _ (by simp [hp]), if_pos hp.symm]
      rfl
    · rw [List.find?_cons_of_neg _ (by simp [hp]), if_neg (fun h => hp h.symm)]
      exact ih (fun kv hkv => hne kv (by simp [hkv]))

/-- Entries with the same key are the same entry, when the keys are distinct. -/
theorem eq_of_fst_eq_of_nodup {α β : Type} :
    ∀ (l : List (α × β)), (l.map Prod.fst).Nodup →
      ∀ x ∈ l, ∀ y ∈ l, x.1 = y.1 → x = y := by
  intro l
  induction l with
  | nil => intro _ x hx; simp at hx
  | cons a t ih =>
    intro hnd x hx y hy hxy
    simp only [List.map_cons, List.nodup_cons] at hnd
    obtain ⟨hna, hnt⟩ := hnd
    rcases List.mem_cons.mp hx with hxa | hxt
    · rcases List.mem_cons.mp hy with hya | hyt
      · rw [hxa, hya]
      · exfalso
        apply hna
        have hfst : a.1 = y.1 := by rw [← hxa, hxy]
        rw [hfst]
        exact List.mem_map.mpr ⟨y, hyt, rfl⟩
    · rcases List.mem_cons.mp hy with hya | hyt
      · exfalso
        apply hna
        have hfst : a.1 = x.1 := by rw [← hya, ← hxy]
        rw [hfst]
        exact List.mem_map.mpr ⟨x, hxt, rfl⟩
      · exact ih hnt x hxt y hyt hxy

/-- **C8**.  Trie round trip (`Trie::insert`, `Trie::get` in
`src/trie/node.rs`): after inserting distinct (non-empty) keys into a fresh
trie, `get` returns the inserted value for every inserted key and `none` for
every non-inserted key — in particular for every strict prefix of an inserted
key that was not itself inserted — and re-inserting a key that already
carries a value returns that previous value. -/
theorem trie_round_trip {V : Type} (kvs : List (Str × V))
    (hne : ∀ kv ∈ kvs, kv.1 ≠ []) (hnd : (kvs.map Prod.fst).Nodup) :
    (∀ kv ∈ kvs, NTrie.get kv.1 (trieOf kvs) = some kv.2)
    ∧ (∀ q : Str, q ∉ kvs.map Prod.fst → NTrie.get q (trieOf kvs) = none)
    ∧ (∀ k ∈ kvs.map Prod.fst, ∀ q : Str, q <+: k → q ≠ k → q ∉ kvs.map Prod.fst →
        NTrie.get q (trieOf kvs) = none)
    ∧ (∀ (k : Str) (v₀ : V), k ≠ [] → NTrie.get k (trieOf kvs) = some v₀ →
        ∀ v' : V, (NTrie.insert k v' (trieOf kvs)).1 = some (some v₀)) := by
  have master := vget_trieOf kvs hne
  refine ⟨?_, ?_, ?_, ?_⟩
  · intro kv hkv
    rw [NTrie.get, master]
    have hsat : ∃ x ∈ kvs.reverse, (NTrie.encKey x.1 == NTrie.encKey kv.1) = true := by
      exact ⟨kv, List.mem_reverse.mpr hkv, by simp⟩
    obtain ⟨kv', hfind⟩ := List.find?_isSome.mpr hsat |> Option.isSome_iff_exists.mp
    rw [hfind]
    have hmem : kv' ∈ kvs := List.mem_reverse.mp (List.mem_of_find?_eq_some hfind)
    have hkey : NTrie.encKey kv'.1 = NTrie.encKey kv.1 := by
      have := List.find?_some hfind
      simpa using this
    have : kv' = kv :=
      eq_of_fst_eq_of_nodup kvs hnd kv' hmem kv hkv (NTrie.encKey_inj hkey)
    rw [this]
    rfl
  · intro q hq
    rw [NTrie.get, master]
    have : kvs.reverse.find? (fun kv => NTrie.encKey kv.1 == NTrie.encKey q) = none := by
      rw [List.find?_eq_none]
      intro x hx hbeq
      have hkey : NTrie.encKey x.1 = NTrie.encKey q := by simpa using hbeq
      exact hq (List.mem_map.mpr ⟨x, List.mem_reverse.mp hx, NTrie.encKey_inj hkey⟩)
    rw [this]
    rfl
  · intro k _ q _ _ hq
    rw [NTrie.get, master]
    have : kvs.reverse.find? (fun kv => NTrie.encKey kv.1 == NTrie.encKey q) = none := by
      rw [List.find?_eq_none]
      intro x hx hbeq
      have hkey : NTrie.encKey x.1 = NTrie.encKey q := by simpa using hbeq
      exact hq (List.mem_map.mpr ⟨x, List.mem_reverse.mp hx, NTrie.encKey_inj hkey⟩)
    rw [this]
    rfl
  · intro k v₀ hk hget v'
    rw [NTrie.insert_fst_aux k v' (trieOf kvs) (fun h => absurd h hk)]
    rw [NTrie.get] at hget
    rw [hget]

/-- Witness for `trie_round_trip` at a concrete two-key trie. -/
theorem trie_round_trip_witness :
    (∀ kv ∈ [(([1] : Str), 10), ([2], 20)], kv.1 ≠ [])
    ∧ ((([(([1] : Str), 10), ([2], 20)]).map Prod.fst).Nodup)
    ∧ (∀ kv ∈ [(([1] : Str), 10), ([2], 20)],
        NTrie.get kv.1 (trieOf [(([1] : Str), 10), ([2], 20)]) = some kv.2) := by
  refine ⟨by decide, by decide, ?_⟩
  exact (trie_round_trip [(([1] : Str), 10), ([2], 20)] (by decide) (by decide)).1

/-! ## Byte-labelled trees and the `Node` interface

`MultiHeadDFA` runs over anything implementing
`Node { children() -> Iterator<(u8, Self)>, is_leaf() -> bool }`
(`src/librarian/search/mod.rs`).  A traversal through such a node interface
unfolds a finite byte-labelled tree whose nodes optionally carry a payload
(the trie leaf value; `is_leaf()` is "carries a value", not "childless").
`PTree` is that tree: `node v kids` has payload `v : Option α` and an ordered
forest of byte-labelled children. -/

mutual
/-- A finite byte-labelled payload tree: the shape a `Node` traversal exposes. -/
inductive PTree (α : Type) where
  | node : Option α → PForest α → PTree α
/-- An ordered forest of byte-labelled children, in iterator order. -/
inductive PForest (α : Type) where
  | nil : PForest α
  | cons : Nat → PTree α → PForest α → PForest α
end

namespace PTree

/-- The payload of a node (`is_leaf()` is its presence). -/
def val {α : Type} : PTree α → Option α
  | node v _ => v

/-- The child forest of a node (the `children()` iterator). -/
def kids {α : Type} : PTree α → PForest α
  | node _ f => f

end PTree

@[simp] theorem PTree.val_node {α : Type} (v : Option α) (f : PForest α) :
    (PTree.node v f).val = v := rfl

@[simp] theorem PTree.kids_node {α : Type} (v : Option α) (f : PForest α) :
    (PTree.node v f).kids = f := rfl

/-- Concatenation of forests (iterating one after the other). -/
def PForest.append {α : Type} : PForest α → PForest α → PForest α
  | .nil, g => g
  | .cons b t rest, g => .cons b t (PForest.append rest g)

mutual
/-- The leaves of a tree: every payload-carrying node, with the byte path
leading to it from the root, in depth-first order. -/
def leavesT {α : Type} : PTree α → List (Str × α)
  | .node v ch =>
    (match v with
     | some x => [(([] : Str), x)]
     | none => []) ++ leavesF ch
/-- Leaves of every tree of a forest, paths prefixed with the child byte. -/
def leavesF {α : Type} : PForest α → List (Str × α)
  | .nil => []
  | .cons b c rest => (leavesT c).map (fun wv => (b :: wv.1, wv.2)) ++ leavesF rest
end

/-! ## The DFA interface and the MultiHeadDFA driver
(`src/librarian/search/multi_dfa.rs`)

The driver only touches an `Automaton` through `start_state`, `next_state`,
`next_eoi_state`, `is_match_state` and `is_dead_state`; `DFA` is that
interface.  `MultiHeadDFA::new` succeeding means a start state exists, which
the `start` field models.  Note `regex_automata` dense DFAs report matches
with a one-byte delay: a match state entered after byte `i` signals a match
ending before that byte, and `next_eoi_state` reports matches ending at the
end of input; `acceptsFromB` below is exactly that search semantics. -/

/-- The slice of the `regex_automata` `Automaton` interface used by the
driver. -/
structure DFA (σ : Type) where
  start : σ
  next : σ → Nat → σ
  nextEoi : σ → σ
  isMatch : σ → Bool
  isDead : σ → Bool

namespace DFA

variable {σ : Type}

/-- Run the transition function over a byte string. -/
def run (D : DFA σ) (s : σ) : Str → σ
  | [] => s
  | b :: w => D.run (D.next s b) w

/-- The standard (delayed-match) search acceptance from state `s`: some
proper prefix transition enters a match state, or the end-of-input state is a
match state. -/
def acceptsFromB (D : DFA σ) (s : σ) : Str → Bool
  | [] => D.isMatch (D.nextEoi s)
  | b :: w => D.isMatch (D.next s b) || D.acceptsFromB (D.next s b) w

/-- Acceptance of a byte string by the DFA (search semantics from the start
state). -/
def acceptsB (D : DFA σ) (w : Str) : Bool := D.acceptsFromB D.start w

/-- The documented contract of `regex_automata` dead states: they absorb,
they are not match states, and their end-of-input state does not match. -/
structure WellFormed (D : DFA σ) : Prop where
  dead_next : ∀ s b, D.isDead s = true → D.isDead (D.next s b) = true
  dead_not_match : ∀ s, D.isDead s = true → D.isMatch s = false
  dead_eoi : ∀ s, D.isDead s = true → D.isMatch (D.nextEoi s) = false

theorem acceptsFromB_dead (D : DFA σ) (hWF : D.WellFormed) :
    ∀ (w : Str) (s : σ), D.isDead s = true → D.acceptsFromB s w = false := by
  intro w
  induction w with
  | nil => intro s hs; exact hWF.dead_eoi s hs
  | cons b w ih =>
    intro s hs
    have hd := hWF.dead_next s b hs
    simp [acceptsFromB, hWF.dead_not_match _ hd, ih _ hd]

end DFA

/-- The per-leaf decision the driver makes while driving from state `s`
along a relative byte path: `some st` means the leaf at that path is yielded
with DFA state `st`.  It mirrors `MultiHeadDFA::next`
(`src/librarian/search/multi_dfa.rs` lines 83-136): a transition into a dead
state prunes the subtree; a transition into a match state turns the head
accepting, so every leaf below is yielded with that state; otherwise driving
continues, and at the leaf itself the end-of-input state decides. -/
def driveSpec {σ : Type} (D : DFA σ) (s : σ) : Str → Option σ
  | [] => if D.isMatch (D.nextEoi s) then some (D.nextEoi s) else none
  | b :: w =>
    if D.isDead (D.next s b) then none
    else if D.isMatch (D.next s b) then some (D.next s b)
    else driveSpec D (D.next s b) w

theorem driveSpec_isSome {σ : Type} (D : DFA σ) (hWF : D.WellFormed) :
    ∀ (w : Str) (s : σ), (driveSpec D s w).isSome = D.acceptsFromB s w := by
  intro w
  induction w with
  | nil =>
    intro s
    by_cases h : D.isMatch (D.nextEoi s) = true
    · simp [driveSpec, DFA.acceptsFromB, h]
    · simp only [Bool.not_eq_true] at h
      simp [driveSpec, DFA.acceptsFromB, h]
  | cons b w ih =>
    intro s
    by_cases hd : D.isDead (D.next s b) = true
    · simp [driveSpec, DFA.acceptsFromB, hd, hWF.dead_not_match _ hd,
        D.acceptsFromB_dead hWF w _ hd]
    · simp only [Bool.not_eq_true] at hd
      by_cases hm : D.isMatch (D.next s b) = true
      · simp [driveSpec, DFA.acceptsFromB, hd, hm]
      · simp only [Bool.not_eq_true] at hm
        simp [driveSpec, DFA.acceptsFromB, hd, hm, ih]

mutual
/-- `MultiHeadDFA` restricted to a driving head at the root of `t` with state
`s`, having already spelled the byte path `p`: the list of yields
`(absolute path, payload, match state)` in iteration order.  This is the
depth-first traversal the explicit head stack of `MultiHeadDFA::next`
performs: the head first reports the node itself (end-of-input check on a
leaf), then walks the children in iterator order, pruning on dead states and
switching to an accepting head on match states. -/
def drive {σ α : Type} (D : DFA σ) : PTree α → σ → Str → List (Str × α × σ)
  | .node v ch, s, p =>
    (match v with
     | some x =>
       if D.isMatch (D.nextEoi s) then [(p, x, D.nextEoi s)] else []
     | none => []) ++ driveF D ch s p
/-- Driving continuation over the remaining children of a head. -/
def driveF {σ α : Type} (D : DFA σ) : PForest α → σ → Str → List (Str × α × σ)
  | .nil, _, _ => []
  | .cons b c rest, s, p =>
    (if D.isDead (D.next s b) then []
     else if D.isMatch (D.next s b) then acceptT D c (D.next s b) (p ++ [b])
     else drive D c (D.next s b) (p ++ [b])) ++ driveF D rest s p
/-- An accepting head: every payload-carrying node in its subtree is yielded
as-is, carrying the match state the head entered. -/
def acceptT {σ α : Type} (D : DFA σ) : PTree α → σ → Str → List (Str × α × σ)
  | .node v ch, s, p =>
    (match v with
     | some x => [(p, x, s)]
     | none => []) ++ acceptF D ch s p
/-- Accepting continuation over the remaining children of a head. -/
def acceptF {σ α : Type} (D : DFA σ) : PForest α → σ → Str → List (Str × α × σ)
  | .nil, _, _ => []
  | .cons b c rest, s, p => acceptT D c s (p ++ [b]) ++ acceptF D rest s p
end

/-- The full iterator: one driving head at the root with the DFA start state
(`MultiHeadDFA::new` + exhausting `next`). -/
def mhdYields {σ α : Type} (D : DFA σ) (t : PTree α) : List (Str × α × σ) :=
  drive D t D.start []

section UnfoldLemmas

variable {σ α : Type} (D : DFA σ)

theorem leavesT_node (v : Option α) (ch : PForest α) :
    leavesT (.node v ch)
      = (match v with | some x => [(([] : Str), x)] | none => []) ++ leavesF ch := rfl

theorem leavesF_nil : leavesF (.nil : PForest α) = [] := rfl

theorem leavesF_cons (b : Nat) (c : PTree α) (rest : PForest α) :
    leavesF (.cons b c rest)
      = (leavesT c).map (fun wv => (b :: wv.1, wv.2)) ++ leavesF rest := rfl

theorem drive_node (v : Option α) (ch : PForest α) (s : σ) (p : Str) :
    drive D (.node v ch) s p
      = (match v with
         | some x => if D.isMatch (D.nextEoi s) then [(p, x, D.nextEoi s)] else []
         | none => []) ++ driveF D ch s p := rfl

theorem driveF_nil (s : σ) (p : Str) : driveF D (.nil : PForest α) s p = [] := rfl

theorem driveF_cons (b : Nat) (c : PTree α) (rest : PForest α) (s : σ) (p : Str) :
    driveF D (.cons b c rest) s p
      = (if D.isDead (D.next s b) then []
         else if D.isMatch (D.next s b) then acceptT D c (D.next s b) (p ++ [b])
         else drive D c (D.next s b) (p ++ [b])) ++ driveF D rest s p := rfl

theorem acceptT_node (v : Option α) (ch : PForest α) (s : σ) (p : Str) :
    acceptT D (.node v ch) s p
      = (match v with | some x => [(p, x, s)] | none => []) ++ acceptF D ch s p := rfl

theorem acceptF_nil (s : σ) (p : Str) : acceptF D (.nil : PForest α) s p = [] := rfl

theorem acceptF_cons (b : Nat) (c : PTree α) (rest : PForest α) (s : σ) (p : Str) :
    acceptF D (.cons b c rest) s p
      = acceptT D c s (p ++ [b]) ++ acceptF D rest s p := rfl

end UnfoldLemmas

/-- `filterMap` of an everywhere-`none` function vanishes. -/
theorem filterMap_none_of {γ δ : Type} {l : List γ} {f : γ → Option δ}
    (h : ∀ x ∈ l, f x = none) : l.filterMap f = [] := by
  induction l with
  | nil => rfl
  | cons a t ih =>
    rw [List.filterMap_cons, h a (by simp)]
    exact ih (fun x hx => h x (by simp [hx]))

/-- `filterMap` of an everywhere-`some` function is a `map`. -/
theorem filterMap_some_of {γ δ : Type} {l : List γ} {f : γ → Option δ} {g : γ → δ}
    (h : ∀ x ∈ l, f x = some (g x)) : l.filterMap f = l.map g := by
  induction l with
  | nil => rfl
  | cons a t ih =>
    rw [List.filterMap_cons, h a (by simp), List.map_cons]
    rw [ih (fun x hx => h x (by simp [hx]))]

mutual
/-- Structural characterisation of a driving head: its yields are exactly the
leaves of the subtree, filtered and annotated by the per-leaf decision
`driveSpec`, in leaf order. -/
theorem drive_eq_leaves {σ α : Type} (D : DFA σ) (t : PTree α) (s : σ) (p : Str) :
    drive D t s p = (leavesT t).filterMap
      (fun wv => (driveSpec D s wv.1).map (fun st => (p ++ wv.1, wv.2, st))) := by
  match t with
  | .node v ch =>
    rw [drive_node, leavesT_node, List.filterMap_append, driveF_eq_leaves D ch s p]
    congr 1
    match v with
    | some x =>
      by_cases h : D.isMatch (D.nextEoi s) = true
      · simp [driveSpec, h]
      · simp only [Bool.not_eq_true] at h
        simp [driveSpec, h]
    | none => simp

/-- The forest-level half of `drive_eq_leaves`. -/
theorem driveF_eq_leaves {σ α : Type} (D : DFA σ) (f : PForest α) (s : σ) (p : Str) :
    driveF D f s p = (leavesF f).filterMap
      (fun wv => (driveSpec D s wv.1).map (fun st => (p ++ wv.1, wv.2, st))) := by
  match f with
  | .nil => rfl
  | .cons b c rest =>
    rw [driveF_cons, leavesF_cons, List.filterMap_append, driveF_eq_leaves D rest s p]
    congr 1
    rw [List.filterMap_map]
    by_cases hd : D.isDead (D.next s b) = true
    · rw [if_pos hd]
      refine (filterMap_none_of ?_).symm
      intro wv _
      simp [Function.comp, driveSpec, hd]
    · simp only [Bool.not_eq_true] at hd
      by_cases hm : D.isMatch (D.next s b) = true
      · rw [if_neg (by simp [hd]), if_pos hm]
        rw [acceptT_eq_leaves D c (D.next s b) (p ++ [b])]
        refine (filterMap_some_of ?_).symm
        intro wv _
        simp [Function.comp, driveSpec, hd, hm, List.append_assoc]
      · simp only [Bool.not_eq_true] at hm
        rw [if_neg (by simp [hd]), if_neg (by simp [hm])]
        rw [drive_eq_leaves D c (D.next s b) (p ++ [b])]
        congr 1
        funext wv
        simp [Function.comp, driveSpec, hd, hm, List.append_assoc]

/-- An accepting head yields every leaf of its subtree, in leaf order,
carrying the state it entered on. -/
theorem acceptT_eq_leaves {σ α : Type} (D : DFA σ) (t : PTree α) (s : σ) (p : Str) :
    acceptT D t s p = (leavesT t).map (fun wv => (p ++ wv.1, wv.2, s)) := by
  match t with
  | .node v ch =>
    rw [acceptT_node, leavesT_node, List.map_append, acceptF_eq_leaves D ch s p]
    congr 1
    match v with
    | some x => simp
    | none => simp

/-- The forest-level half of `acceptT_eq_leaves`. -/
theorem acceptF_eq_leaves {σ α : Type} (D : DFA σ) (f : PForest α) (s : σ) (p : Str) :
    acceptF D f s p = (leavesF f).map (fun wv => (p ++ wv.1, wv.2, s)) := by
  match f with
  | .nil => rfl
  | .cons b c rest =>
    rw [acceptF_cons, leavesF_cons, List.map_append, acceptF_eq_leaves D rest s p]
    congr 1
    rw [acceptT_eq_leaves D c s (p ++ [b]), List.map_map]
    congr 1
    funext wv
    simp [List.append_assoc]
end

/-- The payloads a driving head yields form a sublist of its subtree's leaf
payloads (each leaf contributes at most one yield). -/
theorem yield_payloads_sublist {σ α : Type} (l : List (Str × α)) (g : Str → Option σ) (p : Str) :
    ((l.filterMap (fun wv => (g wv.1).map (fun st => (p ++ wv.1, wv.2, st)))).map
        (fun o => o.2.1)).Sublist (l.map Prod.snd) := by
  induction l with
  | nil => simp
  | cons a t ih =>
    cases hg : g a.1 with
    | none => simpa [List.filterMap_cons, hg] using ih.cons a.2
    | some st => simpa [List.filterMap_cons, hg] using ih.cons₂ a.2

/-- **C1**.  `MultiHeadDFA` soundness, completeness and uniqueness
(`MultiHeadDFA::next`, `src/librarian/search/multi_dfa.rs` lines 83-136): over
any finite node tree and any DFA satisfying the documented dead-state
contract of the `Automaton` trait (`MultiHeadDFA::new` succeeding is modelled
by the presence of the start state), a leaf is yielded iff the byte path from
the root to it is accepted by the DFA — acceptance being the standard
delayed-match search semantics — and no leaf is yielded twice (leaves being
identified by their payloads, assumed distinct). -/
theorem multi_head_dfa_yields {σ α : Type} (D : DFA σ) (t : PTree α)
    (hWF : D.WellFormed) (hnd : ((leavesT t).map Prod.snd).Nodup) :
    (∀ w v, (w, v) ∈ leavesT t →
       ((∃ st, (w, v, st) ∈ mhdYields D t) ↔ D.acceptsB w = true))
    ∧ ((mhdYields D t).map (fun o => o.2.1)).Nodup := by
  have hchar : mhdYields D t = (leavesT t).filterMap
      (fun wv => (driveSpec D D.start wv.1).map (fun st => ([] ++ wv.1, wv.2, st))) :=
    drive_eq_leaves D t D.start []
  constructor
  · intro w v hwv
    constructor
    · rintro ⟨st, hst⟩
      rw [hchar] at hst
      obtain ⟨wv', hmem, heq⟩ := List.mem_filterMap.mp hst
      have h1 : (driveSpec D D.start wv'.1).isSome = true := by
        cases hds : driveSpec D D.start wv'.1 with
        | none => rw [hds] at heq; simp at heq
        | some st' => rfl
      have h2 : wv'.1 = w := by
        cases hds : driveSpec D D.start wv'.1 with
        | none => rw [hds] at heq; simp at heq
        | some st' =>
          rw [hds] at heq
          have h3 := congrArg (fun o => Option.map (fun x : Str × α × σ => x.1) o) heq
          simpa using h3
      rw [driveSpec_isSome D hWF] at h1
      rw [← h2]
      exact h1
    · intro hacc
      have hsome : (driveSpec D D.start w).isSome = true := by
        rw [driveSpec_isSome D hWF]; exact hacc
      obtain ⟨st, hst⟩ := Option.isSome_iff_exists.mp hsome
      refine ⟨st, ?_⟩
      rw [hchar]
      exact List.mem_filterMap.mpr ⟨(w, v), hwv, by rw [hst]; rfl⟩
  · rw [hchar]
    exact (yield_payloads_sublist (leavesT t) (driveSpec D D.start) []).nodup hnd

/-- A small concrete DFA: exactly the byte string "ab", end-anchored, with a
single absorbing dead state 4 and the delayed match state 3. -/
def exDFA : DFA Nat where
  start := 0
  next := fun s b => if s = 0 ∧ b = 97 then 1 else if s = 1 ∧ b = 98 then 2 else 4
  nextEoi := fun s => if s = 2 then 3 else 4
  isMatch := fun s => s == 3
  isDead := fun s => s == 4

theorem exDFA_wf : exDFA.WellFormed := by
  constructor
  · intro s b h
    have hs : s = 4 := by simpa [exDFA] using h
    subst hs
    show ((if (4 = 0 ∧ b = 97) then 1 else if (4 = 1 ∧ b = 98) then 2 else 4 : Nat) == 4) = true
    rw [if_neg (by rintro ⟨h1, -⟩; omega), if_neg (by rintro ⟨h1, -⟩; omega)]
    rfl
  · intro s h
    have hs : s = 4 := by simpa [exDFA] using h
    subst hs
    rfl
  · intro s h
    have hs : s = 4 := by simpa [exDFA] using h
    subst hs
    rfl

/-- A concrete two-leaf tree: payload 1 at path "a", payload 2 at path "ab". -/
def exTree : PTree Nat :=
  .node none (.cons 97 (.node (some 1) (.cons 98 (.node (some 2) .nil) .nil)) .nil)

/-- Witness for `multi_head_dfa_yields` at `exDFA` over `exTree`. -/
theorem multi_head_dfa_yields_witness :
    exDFA.WellFormed ∧ ((leavesT exTree).map Prod.snd).Nodup
    ∧ ((∀ w v, (w, v) ∈ leavesT exTree →
          ((∃ st, (w, v, st) ∈ mhdYields exDFA exTree) ↔ exDFA.acceptsB w = true))
        ∧ ((mhdYields exDFA exTree).map (fun o => o.2.1)).Nodup) :=
  ⟨exDFA_wf, by decide, multi_head_dfa_yields exDFA exTree exDFA_wf (by decide)⟩

/-! ## The byte-level view of a trie

`MultiHeadDFA` sees a trie through the `Node` instance for trie references:
`children()` is the `bytes()` iterator and `is_leaf()` is "carries a value".
Modelled from the spec: this snapshot's `src/trie/iter.rs` no longer contains
the `Bytes` iterator that `src/librarian/search/nodes.rs` references; per the
spec (§4.1) it yields `(byte, grandchild)` pairs, advancing the high nibble
in the outer position and the low nibble inside, i.e. bytes in ascending
order.  We therefore embed the byte-level tree a trie exposes directly:
`insertP` is `Trie::insert` with the two nibble steps of each byte collapsed
into one byte-labelled edge, keeping the children of every node in ascending
byte order, and `trieOfP` is the `Trie::from(&Librarian)` insertion loop. -/

/-- The tree of a freshly created trie: no value, no children. -/
def emptyP {α : Type} : PTree α := .node none .nil

/-- Look up the child labelled `b` (the array slot the two nibbles address). -/
def findSlotP {α : Type} (b : Nat) : PForest α → Option (PTree α)
  | .nil => none
  | .cons b' c rest => if b' = b then some c else findSlotP b rest

/-- Update-or-allocate the child labelled `b`, keeping children in ascending
byte order (the traversal order `bytes()` exposes). -/
def upsertP {α : Type} (f : Option (PTree α) → PTree α) (b : Nat) :
    PForest α → PForest α
  | .nil => .cons b (f none) .nil
  | .cons b' c rest =>
    if b < b' then .cons b (f none) (.cons b' c rest)
    else if b' = b then .cons b' (f (some c)) rest
    else .cons b' c (upsertP f b rest)

/-- `Trie::insert` collapsed to the byte level: walk the bytes of the key,
traversing or allocating children, and store the value at the terminal node
(replacing any previous value). -/
def insertP {α : Type} : Str → α → PTree α → PTree α
  | [], v, .node _ ch => .node (some v) ch
  | b :: k, v, .node val ch =>
    .node val (upsertP (fun c => insertP k v (c.getD emptyP)) b ch)

/-- `Trie::get` collapsed to the byte level. -/
def getP {α : Type} : Str → PTree α → Option α
  | [], t => t.val
  | b :: k, t =>
    match findSlotP b t.kids with
    | some c => getP k c
    | none => none

/-- The byte labels of a forest, in order. -/
def keysF {α : Type} : PForest α → List Nat
  | .nil => []
  | .cons b _ rest => b :: keysF rest

mutual
/-- Every forest in the tree has strictly ascending byte labels (the shape
`bytes()` iteration produces). -/
inductive SortedT {α : Type} : PTree α → Prop where
  | node : ∀ (v : Option α) (f : PForest α), SortedF f → SortedT (.node v f)
/-- Ascending byte labels at this level, all subtrees sorted. -/
inductive SortedF {α : Type} : PForest α → Prop where
  | nil : SortedF .nil
  | cons : ∀ (b : Nat) (c : PTree α) (rest : PForest α),
      SortedT c → SortedF rest → (∀ b' ∈ keysF rest, b < b') → SortedF (.cons b c rest)
end

theorem SortedF.parts {α : Type} {b : Nat} {c : PTree α} {rest : PForest α}
    (h : SortedF (.cons b c rest)) :
    SortedT c ∧ SortedF rest ∧ ∀ b' ∈ keysF rest, b < b' := by
  cases h with
  | cons _ _ _ hc hrest hbound => exact ⟨hc, hrest, hbound⟩

theorem SortedT.forest {α : Type} {v : Option α} {f : PForest α}
    (h : SortedT (.node v f)) : SortedF f := by
  cases h with
  | node _ _ hf => exact hf

theorem findSlotP_eq_none {α : Type} (b : Nat) :
    ∀ (ch : PForest α), (∀ x ∈ keysF ch, ¬ x = b) → findSlotP b ch = none
  | .nil, _ => rfl
  | .cons b' c rest, h => by
    rw [findSlotP, if_neg (h b' (by simp [keysF]))]
    exact findSlotP_eq_none b rest (fun x hx => h x (by simp [keysF]; right; exact hx))

theorem findSlotP_upsertP {α : Type} (f : Option (PTree α) → PTree α) (b q : Nat) :
    ∀ (ch : PForest α), SortedF ch →
      findSlotP q (upsertP f b ch)
        = if b = q then some (f (findSlotP b ch)) else findSlotP q ch
  | .nil, _ => by
    by_cases h : b = q <;> simp [upsertP, findSlotP, h]
  | .cons b' c rest, hs => by
    obtain ⟨-, hrest, hbound⟩ := hs.parts
    rw [upsertP]
    by_cases h1 : b < b'
    · rw [if_pos h1]
      have hslot : findSlotP b rest = none :=
        findSlotP_eq_none b rest (fun x hx => by have := hbound x hx; omega)
      simp only [findSlotP]
      have hb'b : ¬ b' = b := by omega
      by_cases h2 : b = q
      · rw [if_pos h2, if_pos h2, if_neg hb'b, hslot]
      · rw [if_neg h2, if_neg h2]
    · rw [if_neg h1]
      by_cases h2 : b' = b
      · rw [if_pos h2]
        simp only [findSlotP]
        rw [if_pos h2]
        by_cases h3 : b = q
        · rw [if_pos (h2.trans h3), if_pos h3]
        · rw [if_neg (fun hh => h3 (h2.symm.trans hh)), if_neg h3,
            if_neg (fun hh => h3 (h2.symm.trans hh))]
      · rw [if_neg h2]
        simp only [findSlotP]
        rw [if_neg h2]
        by_cases h3 : b' = q
        · have hbq : ¬ b = q := fun h => h2 (by omega)
          rw [if_pos h3, if_neg hbq, if_pos h3]
        · rw [if_neg h3, findSlotP_upsertP f b q rest hrest, if_neg h3]

theorem keysF_upsertP {α : Type} (f : Option (PTree α) → PTree α) (b : Nat) :
    ∀ (ch : PForest α), ∀ q ∈ keysF (upsertP f b ch), q = b ∨ q ∈ keysF ch
  | .nil, q, hq => by
    rw [upsertP] at hq
    simp [keysF] at hq
    exact Or.inl hq
  | .cons b' c rest, q, hq => by
    rw [upsertP] at hq
    by_cases h1 : b < b'
    · rw [if_pos h1] at hq
      simp [keysF] at hq
      rcases hq with h | h | h
      · exact Or.inl h
      · exact Or.inr (by simp [keysF, h])
      · exact Or.inr (by simp [keysF]; right; exact h)
    · rw [if_neg h1] at hq
      by_cases h2 : b' = b
      · rw [if_pos h2] at hq
        simp [keysF] at hq
        rcases hq with h | h
        · exact Or.inr (by simp [keysF, h])
        · exact Or.inr (by simp [keysF]; right; exact h)
      · rw [if_neg h2] at hq
        simp [keysF] at hq
        rcases hq with h | h
        · exact Or.inr (by simp [keysF, h])
        · rcases keysF_upsertP f b rest q h with h3 | h3
          · exact Or.inl h3
          · exact Or.inr (by simp [keysF]; right; exact h3)

mutual
theorem sortedT_insertP {α : Type} :
    ∀ (k : Str) (v : α) (t : PTree α), SortedT t → SortedT (insertP k v t)
  | [], v, .node _ ch, ht => by
    rw [insertP]
    exact SortedT.node _ _ ht.forest
  | b :: k, v, .node val ch, ht => by
    rw [insertP]
    exact SortedT.node _ _ (sortedF_upsertP k v b ch ht.forest)

theorem sortedF_upsertP {α : Type} :
    ∀ (k : Str) (v : α) (b : Nat) (ch : PForest α), SortedF ch →
      SortedF (upsertP (fun c => insertP k v (c.getD emptyP)) b ch)
  | k, v, b, .nil, _ => by
    rw [upsertP]
    exact SortedF.cons _ _ _
      (sortedT_insertP k v emptyP (SortedT.node _ _ SortedF.nil))
      SortedF.nil (by intro x hx; simp [keysF] at hx)
  | k, v, b, .cons b' c rest, hs => by
    obtain ⟨hc, hrest, hbound⟩ := hs.parts
    rw [upsertP]
    by_cases h1 : b < b'
    · rw [if_pos h1]
      refine SortedF.cons _ _ _
        (sortedT_insertP k v emptyP (SortedT.node _ _ SortedF.nil))
        (SortedF.cons _ _ _ hc hrest hbound) ?_
      intro x hx
      simp [keysF] at hx
      rcases hx with h | h
      · omega
      · have := hbound x h; omega
    · rw [if_neg h1]
      by_cases h2 : b' = b
      · rw [if_pos h2]
        exact SortedF.cons _ _ _ (sortedT_insertP k v c hc) hrest hbound
      · rw [if_neg h2]
        refine SortedF.cons _ _ _ hc (sortedF_upsertP k v b rest hrest) ?_
        intro x hx
        rcases keysF_upsertP _ b rest x hx with h | h
        · omega
        · exact hbound x h
end

theorem sortedT_emptyP {α : Type} : SortedT (emptyP : PTree α) :=
  SortedT.node _ _ SortedF.nil

theorem getP_emptyP {α : Type} (q : Str) : getP q (emptyP : PTree α) = none := by
  cases q with
  | nil => rfl
  | cons b q' => rfl

theorem sortedT_of_findSlotP {α : Type} (b : Nat) :
    ∀ (ch : PForest α), SortedF ch → ∀ (c : PTree α), findSlotP b ch = some c → SortedT c
  | .nil, _, c, h => by
    rw [findSlotP] at h
    exact Option.noConfusion h
  | .cons b' c' rest, hs, c, h => by
    obtain ⟨hc', hrest, -⟩ := hs.parts
    rw [findSlotP] at h
    by_cases h4 : b' = b
    · rw [if_pos h4] at h
      injection h with h5
      rw [← h5]
      exact hc'
    · rw [if_neg h4] at h
      exact sortedT_of_findSlotP b rest hrest c h

/-- Byte-level exchange: inserting a key changes `getP` exactly at that key. -/
theorem getP_insertP {α : Type} :
    ∀ (k : Str) (v : α) (t : PTree α), SortedT t →
      ∀ q, getP q (insertP k v t) = if q = k then some v else getP q t := by
  intro k
  induction k with
  | nil =>
    intro v t ht q
    cases t with
    | node val ch =>
      cases q with
      | nil => simp [insertP, getP, PTree.val]
      | cons b q' => simp [insertP, getP, PTree.kids]
  | cons b k' ih =>
    intro v t ht q
    cases t with
    | node val ch =>
      have hf : SortedF ch := ht.forest
      cases q with
      | nil => simp [insertP, getP, PTree.val]
      | cons b2 q' =>
        rw [insertP, getP]
        simp only [PTree.kids]
        rw [findSlotP_upsertP _ b b2 ch hf]
        by_cases hb : b = b2
        · rw [if_pos hb]
          subst hb
          cases hsl : findSlotP b ch with
          | none =>
            simp only [Option.getD]
            rw [ih v emptyP sortedT_emptyP q']
            by_cases hq : q' = k'
            · rw [if_pos hq, if_pos (by rw [hq])]
            · rw [if_neg hq, if_neg (by intro h; injection h with h1 h2; exact hq h2)]
              rw [getP]
              simp only [PTree.kids, hsl]
              rw [getP_emptyP]
          | some c =>
            simp only [Option.getD]
            have hc : SortedT c := sortedT_of_findSlotP b ch hf c hsl
            rw [ih v c hc q']
            by_cases hq : q' = k'
            · rw [if_pos hq, if_pos (by rw [hq])]
            · rw [if_neg hq, if_neg (by intro h; injection h with h1 h2; exact hq h2)]
              rw [getP]
              simp only [PTree.kids, hsl]
        · rw [if_neg hb]
          rw [if_neg (by intro h; injection h with h1 h2; exact hb h1.symm)]
          rw [getP]
          simp only [PTree.kids]

/-- The `Trie::from(&Librarian)` loop: insert every gram's textual key with
its value, in view order. -/
def trieOfP {α : Type} (kvs : List (Str × α)) : PTree α :=
  kvs.foldl (fun t kv => insertP kv.1 kv.2 t) emptyP

theorem sortedT_trieOfP {α : Type} (kvs : List (Str × α)) : SortedT (trieOfP kvs) := by
  induction kvs using List.reverseRecOn with
  | nil => exact sortedT_emptyP
  | append_singleton as a ih =>
    have : trieOfP (as ++ [a]) = insertP a.1 a.2 (trieOfP as) := by
      simp [trieOfP, List.foldl_append]
    rw [this]
    exact sortedT_insertP a.1 a.2 _ ih

theorem getP_trieOfP {α : Type} (kvs : List (Str × α)) (q : Str) :
    getP q (trieOfP kvs)
      = (kvs.reverse.find? (fun kv => kv.1 == q)).map Prod.snd := by
  induction kvs using List.reverseRecOn with
  | nil => simp [trieOfP, getP_emptyP]
  | append_singleton as a ih =>
    have hfold : trieOfP (as ++ [a]) = insertP a.1 a.2 (trieOfP as) := by
      simp [trieOfP, List.foldl_append]
    rw [hfold, getP_insertP a.1 a.2 _ (sortedT_trieOfP as) q, List.reverse_append]
    simp only [List.reverse_cons, List.reverse_nil, List.nil_append, List.singleton_append]
    by_cases hq : a.1 = q
    · rw [List.find?_cons_of_pos _ (by simp [hq]), if_pos hq.symm]
      rfl
    · rw [List.find?_cons_of_neg _ (by simp [hq]), if_neg (fun h => hq h.symm)]
      exact ih

theorem leavesF_append {α : Type} :
    ∀ (g h : PForest α), leavesF (PForest.append g h) = leavesF g ++ leavesF h
  | .nil, h => rfl
  | .cons b c rest, h => by
    rw [PForest.append, leavesF_cons, leavesF_cons, leavesF_append rest h,
      List.append_assoc]

theorem findSlotP_some_mem_keys {α : Type} (b : Nat) :
    ∀ (fr : PForest α) (c : PTree α), findSlotP b fr = some c → b ∈ keysF fr
  | .nil, c, h => by
    rw [findSlotP] at h
    exact Option.noConfusion h
  | .cons b' c' rest, c, h => by
    rw [findSlotP] at h
    by_cases hb : b' = b
    · simp [keysF, hb]
    · rw [if_neg hb] at h
      simp only [keysF, List.mem_cons]
      exact Or.inr (findSlotP_some_mem_keys b rest c h)

mutual
/-- In a sorted tree, the leaf list is exactly the graph of `getP`. -/
theorem mem_leavesT_iff_getP {α : Type} :
    ∀ (t : PTree α), SortedT t → ∀ (w : Str) (x : α),
      ((w, x) ∈ leavesT t ↔ getP w t = some x)
  | .node v ch, ht, w, x => by
    have hf : SortedF ch := ht.forest
    rw [leavesT_node, List.mem_append]
    cases w with
    | nil =>
      have hforest : ¬ (([] : Str), x) ∈ leavesF ch := by
        intro h
        obtain ⟨b, w', hw, -⟩ := (mem_leavesF_iff ch hf [] x).mp h
        exact List.noConfusion hw
      constructor
      · rintro (h | h)
        · cases v with
          | none => simp at h
          | some y =>
            simp at h
            show some y = some x
            rw [h]
        · exact absurd h hforest
      · intro h
        have h2 : v = some x := h
        left
        rw [h2]
        simp
    | cons b w' =>
      have hval : ¬ ((b :: w', x) ∈ (match v with
          | some y => [(([] : Str), y)]
          | none => ([] : List (Str × α)))) := by
        cases v <;> simp
      constructor
      · rintro (h | h)
        · exact absurd h hval
        · obtain ⟨b2, w2, hw, c, hfind, hget⟩ := (mem_leavesF_iff ch hf (b :: w') x).mp h
          injection hw with h1 h2
          rw [← h1] at hfind
          rw [getP]
          simp only [PTree.kids_node, hfind]
          rw [h2]
          exact hget
      · intro h
        right
        cases hfind : findSlotP b ch with
        | none =>
          rw [getP] at h
          simp only [PTree.kids_node, hfind] at h
          exact Option.noConfusion h
        | some c =>
          rw [getP] at h
          simp only [PTree.kids_node, hfind] at h
          exact (mem_leavesF_iff ch hf (b :: w') x).mpr ⟨b, w', rfl, c, hfind, h⟩

/-- Forest counterpart: a leaf of the forest lives under the unique slot its
first byte addresses. -/
theorem mem_leavesF_iff {α : Type} :
    ∀ (fr : PForest α), SortedF fr → ∀ (w : Str) (x : α),
      ((w, x) ∈ leavesF fr
        ↔ ∃ b w', w = b :: w' ∧ ∃ c, findSlotP b fr = some c ∧ getP w' c = some x)
  | .nil, _, w, x => by
    rw [leavesF_nil]
    simp only [List.not_mem_nil, false_iff]
    rintro ⟨b, w', -, c, hfind, -⟩
    rw [findSlotP] at hfind
    exact Option.noConfusion hfind
  | .cons b c rest, hs, w, x => by
    obtain ⟨hc, hrest, hbound⟩ := hs.parts
    rw [leavesF_cons, List.mem_append]
    constructor
    · rintro (h | h)
      · obtain ⟨wv, hwv, heq⟩ := List.mem_map.mp h
        injection heq with h1 h2
        refine ⟨b, wv.1, h1.symm, c, ?_, ?_⟩
        · rw [findSlotP, if_pos rfl]
        · rw [← h2]
          exact (mem_leavesT_iff_getP c hc wv.1 wv.2).mp
            (by simpa using hwv)
      · obtain ⟨b2, w2, hw, c2, hfind, hget⟩ := (mem_leavesF_iff rest hrest w x).mp h
        refine ⟨b2, w2, hw, c2, ?_, hget⟩
        have hb2 : b2 ∈ keysF rest := findSlotP_some_mem_keys b2 rest c2 hfind
        rw [findSlotP, if_neg (by have := hbound b2 hb2; omega)]
        exact hfind
    · rintro ⟨b2, w2, rfl, c2, hfind, hget⟩
      rw [findSlotP] at hfind
      by_cases hb : b = b2
      · rw [if_pos hb] at hfind
        injection hfind with h1
        left
        refine List.mem_map.mpr ⟨(w2, x), ?_, by rw [hb]⟩
        exact (mem_leavesT_iff_getP c hc w2 x).mpr (by rw [h1]; exact hget)
      · rw [if_neg hb] at hfind
        right
        exact (mem_leavesF_iff rest hrest (b2 :: w2) x).mpr ⟨b2, w2, rfl, c2, hfind, hget⟩
end

/-- Every leaf path of a forest starts with one of its byte labels. -/
theorem leavesF_head_mem {α : Type} (fr : PForest α) (hs : SortedF fr)
    {w : Str} {x : α} (h : (w, x) ∈ leavesF fr) :
    ∃ b w', w = b :: w' ∧ b ∈ keysF fr := by
  obtain ⟨b, w', hw, c, hfind, -⟩ := (mem_leavesF_iff fr hs w x).mp h
  exact ⟨b, w', hw, findSlotP_some_mem_keys b fr c hfind⟩

mutual
/-- Sorted trees have no two leaves at the same path. -/
theorem leavesT_paths_nodup {α : Type} :
    ∀ (t : PTree α), SortedT t → ((leavesT t).map Prod.fst).Nodup
  | .node v ch, ht => by
    have hf : SortedF ch := ht.forest
    rw [leavesT_node, List.map_append, List.nodup_append]
    refine ⟨?_, leavesF_paths_nodup ch hf, ?_⟩
    · cases v <;> simp
    · intro p hp hp'
      cases v with
      | none => simp at hp
      | some y =>
        simp at hp
        obtain ⟨wv, hwv, hfst⟩ := List.mem_map.mp hp'
        obtain ⟨b, w', hw, -⟩ :=
          leavesF_head_mem ch hf (w := wv.1) (x := wv.2) (by simpa using hwv)
        have : (b :: w' : Str) = [] := by rw [← hw, hfst, hp]
        exact List.noConfusion this
/-- Forest counterpart of `leavesT_paths_nodup`. -/
theorem leavesF_paths_nodup {α : Type} :
    ∀ (fr : PForest α), SortedF fr → ((leavesF fr).map Prod.fst).Nodup
  | .nil, _ => by simp [leavesF_nil]
  | .cons b c rest, hs => by
    obtain ⟨hc, hrest, hbound⟩ := hs.parts
    rw [leavesF_cons, List.map_append, List.nodup_append]
    refine ⟨?_, leavesF_paths_nodup rest hrest, ?_⟩
    · have hinj : ((leavesT c).map Prod.fst).Nodup := leavesT_paths_nodup c hc
      have hmm : ((leavesT c).map (fun wv => (b :: wv.1, wv.2))).map Prod.fst
          = ((leavesT c).map Prod.fst).map (fun w => b :: w) := by
        rw [List.map_map, List.map_map]
        rfl
      rw [hmm]
      exact hinj.map (fun w w' h => by injection h)
    · intro p hp hp'
      obtain ⟨wv, hwv, hfst⟩ := List.mem_map.mp hp
      obtain ⟨wv', hwv', hfst'⟩ := List.mem_map.mp hp'
      obtain ⟨pw, hpw, hfst2⟩ := List.mem_map.mp hwv
      obtain ⟨b2, w2, hw2, hb2⟩ :=
        leavesF_head_mem rest hrest (w := wv'.1) (x := wv'.2) (by simpa using hwv')
      -- p starts with b on the left, with b2 > b on the right
      have hpb : ∃ u, p = b :: u := by
        rw [← hfst, ← hfst2]
        exact ⟨pw.1, rfl⟩
      have hpb2 : ∃ u, p = b2 :: u := by
        rw [← hfst', hw2]
        exact ⟨w2, rfl⟩
      obtain ⟨u, hu⟩ := hpb
      obtain ⟨u', hu'⟩ := hpb2
      have : b = b2 := by
        rw [hu] at hu'
        injection hu'
      have := hbound b2 hb2
      omega
end

/-- Sorted trees have `Nodup` leaf lists. -/
theorem leavesT_nodup {α : Type} (t : PTree α) (ht : SortedT t) : (leavesT t).Nodup :=
  (leavesT_paths_nodup t ht).of_map

/-- The leaves of the trie built from a distinct-key association list are a
permutation of that list. -/
theorem leavesT_trieOfP_perm {α : Type} (kvs : List (Str × α))
    (hnd : (kvs.map Prod.fst).Nodup) :
    (leavesT (trieOfP kvs)).Perm kvs := by
  have hsorted := sortedT_trieOfP kvs
  rw [List.perm_ext_iff_of_nodup (leavesT_nodup _ hsorted) hnd.of_map]
  rintro ⟨w, x⟩
  rw [mem_leavesT_iff_getP _ hsorted w x, getP_trieOfP kvs w]
  constructor
  · intro h
    cases hfind : kvs.reverse.find? (fun kv => kv.1 == w) with
    | none => rw [hfind] at h; exact Option.noConfusion h
    | some kv =>
      rw [hfind] at h
      have hmem : kv ∈ kvs := List.mem_reverse.mp (List.mem_of_find?_eq_some hfind)
      have hkey : kv.1 = w := by simpa using List.find?_some hfind
      have hval : kv.2 = x := by simpa using h
      rw [← hkey, ← hval]
      exact hmem
  · intro h
    have hsat : ∃ y ∈ kvs.reverse, (y.1 == w) = true :=
      ⟨(w, x), List.mem_reverse.mpr h, by simp⟩
    obtain ⟨kv, hfind⟩ := Option.isSome_iff_exists.mp (List.find?_isSome.mpr hsat)
    rw [hfind]
    have hmem : kv ∈ kvs := List.mem_reverse.mp (List.mem_of_find?_eq_some hfind)
    have hkey : kv.1 = w := by simpa using List.find?_some hfind
    have : kv = (w, x) :=
      eq_of_fst_eq_of_nodup kvs hnd kv hmem (w, x) h hkey
    rw [this]
    rfl

/-- Non-empty keys never label the root of the byte trie. -/
theorem trieOfP_val_none {α : Type} (kvs : List (Str × α))
    (hne : ∀ kv ∈ kvs, kv.1 ≠ []) : (trieOfP kvs).val = none := by
  induction kvs using List.reverseRecOn with
  | nil => rfl
  | append_singleton as a ih =>
    have hfold : trieOfP (as ++ [a]) = insertP a.1 a.2 (trieOfP as) := by
      simp [trieOfP, List.foldl_append]
    rw [hfold]
    cases hk : a.1 with
    | nil => exact absurd hk (hne a (by simp))
    | cons b k =>
      cases htr : trieOfP as with
      | node val ch =>
        rw [insertP, PTree.val]
        have := ih (fun kv hkv => hne kv (by simp [hkv]))
        rw [htr] at this
        exact this

/-! ## NestedNode (`src/librarian/search/nest.rs`)

`NestedNode { root, curr, parent, depth }` behaves like `curr`, except that
when the child iterator of a payload-carrying node is exhausted and
`depth > 0`, the iterator respawns at `root` with the current node pushed
onto the parent chain and `depth - 1` (`NestedNodeIter::next`, lines 50-74).
We model a nested node by the tree it exposes to the driver: its payload is
`curr`'s value consed onto the chain of parent values — which is exactly what
`chain()` (lines 28-38) yields, current node first, then parents — and its
children are `curr`'s children followed, at leaves with positive depth, by
the respawn continuation. -/

mutual
/-- Wrap a subtree for traversal at a fixed remaining depth: payloads become
`value :: parent-chain`, and `f v acc` is the forest of respawn children
appended after the real children of a node carrying value `v`. -/
def graftT {α : Type} (f : α → List α → PForest (List α)) :
    PTree α → List α → PTree (List α)
  | .node v ch, acc =>
    .node (v.map (· :: acc))
      (PForest.append (graftF f ch acc)
        (match v with
         | some x => f x acc
         | none => .nil))
/-- Forest half of `graftT`. -/
def graftF {α : Type} (f : α → List α → PForest (List α)) :
    PForest α → List α → PForest (List α)
  | .nil, _ => .nil
  | .cons b c rest, acc => .cons b (graftT f c acc) (graftF f rest acc)
end

/-- The respawn continuation of `NestedNodeIter::next`: at depth 0 nothing;
at depth `d+1`, the children of the root re-rooted with the current leaf's
value pushed onto the chain and depth decremented — including, recursively,
the root's own respawns. -/
def nestRespawn {α : Type} (R : PTree α) : Nat → α → List α → PForest (List α)
  | 0 => fun _ _ => .nil
  | d + 1 => fun v acc => (graftT (nestRespawn R d) R (v :: acc)).kids

/-- A `NestedNode` with root `R`, current subtree `t`, parent-chain values
`acc` and remaining depth `d`, as the tree the driver traverses. -/
def nestGo {α : Type} (R : PTree α) (d : Nat) (t : PTree α) (acc : List α) :
    PTree (List α) :=
  graftT (nestRespawn R d) t acc

/-- `NestedNode::new(root, depth)`: current node is the root, empty parent
chain. -/
def nestTree {α : Type} (R : PTree α) (d : Nat) : PTree (List α) :=
  nestGo R d R []

theorem PForest.append_nil {α : Type} : ∀ (g : PForest α), PForest.append g .nil = g
  | .nil => rfl
  | .cons b c rest => by rw [PForest.append, PForest.append_nil rest]

theorem graftT_node {α : Type} (f : α → List α → PForest (List α))
    (v : Option α) (ch : PForest α) (acc : List α) :
    graftT f (.node v ch) acc
      = .node (v.map (· :: acc))
          (PForest.append (graftF f ch acc)
            (match v with
             | some x => f x acc
             | none => .nil)) := rfl

theorem graftF_nil {α : Type} (f : α → List α → PForest (List α)) (acc : List α) :
    graftF f (.nil : PForest α) acc = .nil := rfl

theorem graftF_cons {α : Type} (f : α → List α → PForest (List α))
    (b : Nat) (c : PTree α) (rest : PForest α) (acc : List α) :
    graftF f (.cons b c rest) acc
      = .cons b (graftT f c acc) (graftF f rest acc) := rfl

mutual
/-- With no respawns (depth 0), grafting is a pure payload relabelling. -/
theorem leavesT_graft_nil {α : Type} :
    ∀ (t : PTree α) (acc : List α),
      leavesT (graftT (fun _ _ => PForest.nil) t acc)
        = (leavesT t).map (fun wv => (wv.1, wv.2 :: acc))
  | .node v ch, acc => by
    rw [graftT_node]
    have hnil : (match v with
        | some x => (fun (_ : α) (_ : List α) => (PForest.nil : PForest (List α))) x acc
        | none => PForest.nil) = (PForest.nil : PForest (List α)) := by
      cases v <;> rfl
    rw [hnil, PForest.append_nil]
    rw [leavesT_node, leavesT_node, List.map_append,
      leavesF_graft_nil ch acc]
    congr 1
    cases v <;> rfl

/-- Forest half of `leavesT_graft_nil`. -/
theorem leavesF_graft_nil {α : Type} :
    ∀ (fr : PForest α) (acc : List α),
      leavesF (graftF (fun _ _ => PForest.nil) fr acc)
        = (leavesF fr).map (fun wv => (wv.1, wv.2 :: acc))
  | .nil, _ => rfl
  | .cons b c rest, acc => by
    rw [graftF_cons, leavesF_cons, leavesF_cons, List.map_append,
      leavesT_graft_nil c acc, leavesF_graft_nil rest acc, List.map_map, List.map_map]
    rfl
end

mutual
/-- The leaves of a grafted tree, up to order: every leaf `(w, v)` of `t`
contributes itself (with the chain extended) plus the leaves of its respawn
forest, paths prefixed by `w`. -/
theorem leavesT_graftT_perm {α : Type} (f : α → List α → PForest (List α)) :
    ∀ (t : PTree α) (acc : List α),
      (leavesT (graftT f t acc)).Perm
        ((leavesT t).flatMap (fun wv =>
          (wv.1, wv.2 :: acc) :: (leavesF (f wv.2 acc)).map (fun uv => (wv.1 ++ uv.1, uv.2))))
  | .node none ch, acc => by
    have hL : leavesT (graftT f (.node none ch) acc) = leavesF (graftF f ch acc) := by
      rw [graftT_node]
      show leavesT (.node none (PForest.append (graftF f ch acc) PForest.nil)) = _
      rw [PForest.append_nil]
      rfl
    have hR : (leavesT (.node (none : Option α) ch)).flatMap (fun wv =>
          (wv.1, wv.2 :: acc) :: (leavesF (f wv.2 acc)).map (fun uv => (wv.1 ++ uv.1, uv.2)))
        = (leavesF ch).flatMap (fun wv =>
          (wv.1, wv.2 :: acc) :: (leavesF (f wv.2 acc)).map (fun uv => (wv.1 ++ uv.1, uv.2))) := rfl
    rw [hL, hR]
    exact leavesF_graftF_perm f ch acc
  | .node (some x) ch, acc => by
    have hL : leavesT (graftT f (.node (some x) ch) acc)
        = (([] : Str), x :: acc) :: (leavesF (graftF f ch acc) ++ leavesF (f x acc)) := by
      rw [graftT_node]
      show leavesT (.node (some (x :: acc)) (PForest.append (graftF f ch acc) (f x acc))) = _
      rw [leavesT_node, leavesF_append]
      rfl
    have hR : (leavesT (.node (some x) ch)).flatMap (fun wv =>
          (wv.1, wv.2 :: acc) :: (leavesF (f wv.2 acc)).map (fun uv => (wv.1 ++ uv.1, uv.2)))
        = (([] : Str), x :: acc) :: ((leavesF (f x acc)).map (fun uv => (([] : Str) ++ uv.1, uv.2))
            ++ (leavesF ch).flatMap (fun wv =>
              (wv.1, wv.2 :: acc) :: (leavesF (f wv.2 acc)).map (fun uv => (wv.1 ++ uv.1, uv.2)))) := by
      show ((([] : Str), x) :: leavesF ch).flatMap _ = _
      rw [List.flatMap_cons]
      rfl
    rw [hL, hR]
    refine List.Perm.cons _ ?_
    have hid : (leavesF (f x acc)).map (fun uv => (([] : Str) ++ uv.1, uv.2)) = leavesF (f x acc) := by
      simp
    rw [hid]
    exact (List.perm_append_comm).trans
      ((leavesF_graftF_perm f ch acc).append_left (leavesF (f x acc)))

/-- Forest half of `leavesT_graftT_perm`. -/
theorem leavesF_graftF_perm {α : Type} (f : α → List α → PForest (List α)) :
    ∀ (fr : PForest α) (acc : List α),
      (leavesF (graftF f fr acc)).Perm
        ((leavesF fr).flatMap (fun wv =>
          (wv.1, wv.2 :: acc) :: (leavesF (f wv.2 acc)).map (fun uv => (wv.1 ++ uv.1, uv.2))))
  | .nil, acc => List.Perm.refl _
  | .cons b c rest, acc => by
    rw [graftF_cons, leavesF_cons, leavesF_cons, List.flatMap_append]
    refine List.Perm.append ?_ (leavesF_graftF_perm f rest acc)
    have h1 := (leavesT_graftT_perm f c acc).map (fun wv : Str × List α => (b :: wv.1, wv.2))
    refine h1.trans ?_
    rw [List.map_flatMap, List.flatMap_map]
    have heq : ((leavesT c).flatMap fun wv =>
          List.map (fun wv : Str × List α => (b :: wv.1, wv.2))
            ((wv.1, wv.2 :: acc) :: (leavesF (f wv.2 acc)).map (fun uv => (wv.1 ++ uv.1, uv.2))))
        = ((leavesT c).flatMap fun wv =>
          ((b :: wv.1, wv.2 :: acc)
            :: (leavesF (f wv.2 acc)).map (fun uv => ((b :: wv.1) ++ uv.1, uv.2)))) :=
      List.flatMap_congr (fun wv _ => by
        rw [List.map_cons, List.map_map]
        rfl)
    rw [heq]
end

theorem flatMap_singleton_eq_map {γ δ : Type} (g : γ → δ) :
    ∀ (l : List γ), (l.flatMap fun x => [g x]) = l.map g
  | [] => rfl
  | x :: xs => by
    rw [List.flatMap_cons, flatMap_singleton_eq_map g xs]
    rfl

/-- Record tuples of up to `d` successive respawns over the entry list `l`,
shallowest pick first. -/
def tuplesUpTo {γ : Type} (l : List γ) : Nat → List (List γ)
  | 0 => [[]]
  | d + 1 => [] :: l.flatMap (fun x => (tuplesUpTo l d).map (x :: ·))

/-- The parent chain a tuple of respawn records builds on top of `base`:
values are consed one by one, so the deepest pick ends up first. -/
def chainRev {α : Type} (tup : List (Str × α)) (base : List α) : List α :=
  tup.foldl (fun c uv => uv.2 :: c) base

theorem chainRev_eq {α : Type} :
    ∀ (tup : List (Str × α)) (base : List α),
      chainRev tup base = (tup.map Prod.snd).reverse ++ base
  | [], _ => rfl
  | uv :: tup, base => by
    show chainRev tup (uv.2 :: base) = ((uv :: tup).map Prod.snd).reverse ++ base
    rw [chainRev_eq tup (uv.2 :: base), List.map_cons, List.reverse_cons,
      List.append_assoc, List.singleton_append]

/-- Leaves of the nested tree at depth `d`, up to order: one leaf per base
leaf `wv` of `t` and per respawn tuple of length at most `d`; the path is the
concatenation of the picked words and the chain collects values deepest
first. -/
theorem leavesT_nestGo_perm {α : Type} (R : PTree α) (hR : R.val = none) :
    ∀ (d : Nat) (t : PTree α) (acc : List α),
      (leavesT (nestGo R d t acc)).Perm
        ((leavesT t).flatMap (fun wv =>
          (tuplesUpTo (leavesT R) d).map (fun tup =>
            (wv.1 ++ tup.flatMap Prod.fst, chainRev tup (wv.2 :: acc)))))
  | 0, t, acc => by
    have hL : nestGo R 0 t acc
        = graftT (fun _ _ => (PForest.nil : PForest (List α))) t acc := rfl
    rw [hL, leavesT_graft_nil]
    have h1 : ∀ wv : Str × α,
        (tuplesUpTo (leavesT R) 0).map (fun tup =>
          (wv.1 ++ tup.flatMap Prod.fst, chainRev tup (wv.2 :: acc)))
        = [(wv.1, wv.2 :: acc)] := by
      intro wv
      show [(wv.1 ++ [], wv.2 :: acc)] = [(wv.1, wv.2 :: acc)]
      rw [List.append_nil]
    have hR0 : ((leavesT t).flatMap (fun wv =>
          (tuplesUpTo (leavesT R) 0).map (fun tup =>
            (wv.1 ++ tup.flatMap Prod.fst, chainRev tup (wv.2 :: acc)))))
        = (leavesT t).map (fun wv => (wv.1, wv.2 :: acc)) := by
      rw [List.flatMap_congr (fun wv _ => h1 wv)]
      exact flatMap_singleton_eq_map _ _
    rw [hR0]
  | d + 1, t, acc => by
    have hresp : ∀ (v : α) (a : List α),
        leavesF (nestRespawn R (d + 1) v a) = leavesT (nestGo R d R (v :: a)) := by
      intro v a
      cases R with
      | node Rv Rch =>
        have hv : Rv = none := hR
        subst hv
        rfl
    refine (leavesT_graftT_perm (nestRespawn R (d + 1)) t acc).trans ?_
    refine List.Perm.flatMap_left (leavesT t) ?_
    intro wv _
    rw [hresp wv.2 acc]
    have hIH := (leavesT_nestGo_perm R hR d R (wv.2 :: acc)).map
      (fun uv : Str × List α => (wv.1 ++ uv.1, uv.2))
    refine (List.Perm.cons _ hIH).trans ?_
    have htail :
        ((leavesT R).flatMap (fun uv =>
            (tuplesUpTo (leavesT R) d).map (fun tup =>
              (uv.1 ++ tup.flatMap Prod.fst, chainRev tup (uv.2 :: wv.2 :: acc))))).map
          (fun uv : Str × List α => (wv.1 ++ uv.1, uv.2))
        = (leavesT R).flatMap (fun uv =>
            (tuplesUpTo (leavesT R) d).map (fun tup =>
              (wv.1 ++ ((uv :: tup) : List (Str × α)).flatMap Prod.fst,
               chainRev (uv :: tup) (wv.2 :: acc)))) := by
      rw [List.map_flatMap]
      refine List.flatMap_congr (fun uv _ => ?_)
      rw [List.map_map]
      refine List.map_congr_left (fun tup _ => ?_)
      show (wv.1 ++ (uv.1 ++ tup.flatMap Prod.fst), chainRev tup (uv.2 :: wv.2 :: acc)) = _
      rfl
    rw [htail]
    have hfin :
        ((wv.1, wv.2 :: acc)
            :: (leavesT R).flatMap (fun uv =>
              (tuplesUpTo (leavesT R) d).map (fun tup =>
                (wv.1 ++ ((uv :: tup) : List (Str × α)).flatMap Prod.fst,
                 chainRev (uv :: tup) (wv.2 :: acc)))))
        = (tuplesUpTo (leavesT R) (d + 1)).map (fun tup =>
            (wv.1 ++ tup.flatMap Prod.fst, chainRev tup (wv.2 :: acc))) := by
      show _ = (([] : List (Str × α))
          :: (leavesT R).flatMap (fun uv =>
            (tuplesUpTo (leavesT R) d).map (uv :: ·))).map (fun tup =>
            (wv.1 ++ tup.flatMap Prod.fst, chainRev tup (wv.2 :: acc)))
      rw [List.map_cons]
      congr 1
      · show (wv.1, wv.2 :: acc) = (wv.1 ++ [], wv.2 :: acc)
        rw [List.append_nil]
      · rw [List.map_flatMap]
        refine List.flatMap_congr (fun uv _ => ?_)
        rw [List.map_map]
        rfl
    rw [hfin]

/-- **C10**.  Depth-0 nesting is observationally the plain tree
(`NestedNode::new(root, 0)`, `NestedNodeIter::next` in
`src/librarian/search/nest.rs`): the driver over the wrapper yields exactly
the leaves of the driver over the root, in the same order with the same
states, each with a singleton `chain()`. -/
theorem nested_depth_zero {σ α : Type} (D : DFA σ) (R : PTree α) :
    mhdYields D (nestTree R 0)
      = (mhdYields D R).map (fun o => (o.1, [o.2.1], o.2.2))
    ∧ ∀ o ∈ mhdYields D (nestTree R 0), o.2.1.length = 1 := by
  have hzero : nestTree R 0 = graftT (fun _ _ => PForest.nil) R [] := rfl
  have hmain : mhdYields D (nestTree R 0)
      = (mhdYields D R).map (fun o => (o.1, [o.2.1], o.2.2)) := by
    rw [mhdYields, mhdYields, drive_eq_leaves, drive_eq_leaves, hzero,
      leavesT_graft_nil R ([] : List α), List.map_filterMap, List.filterMap_map]
    congr 1
    funext wv
    cases hds : driveSpec D D.start wv.1 <;> simp [Function.comp, hds]
  refine ⟨hmain, ?_⟩
  intro o ho
  rw [hmain] at ho
  obtain ⟨o', _, rfl⟩ := List.mem_map.mp ho
  rfl

/-! ### C2: nested search over a trie of inserted keys -/

/-- All driver tuples of 1 to `d + 1` entries of `kvs`: a base pick followed
by a respawn tuple of length at most `d`. -/
def tuples1 {α : Type} (kvs : List (Str × α)) (d : Nat) : List (List (Str × α)) :=
  kvs.flatMap (fun kv => (tuplesUpTo kvs d).map (kv :: ·))

theorem tuplesUpTo_perm {γ : Type} {l l' : List γ} (h : l.Perm l') :
    ∀ d, (tuplesUpTo l d).Perm (tuplesUpTo l' d)
  | 0 => List.Perm.refl _
  | d + 1 => by
    show (([] : List γ) :: l.flatMap fun x => (tuplesUpTo l d).map (x :: ·)).Perm
      (([] : List γ) :: l'.flatMap fun x => (tuplesUpTo l' d).map (x :: ·))
    refine List.Perm.cons _ ?_
    refine (List.Perm.flatMap_right _ h).trans ?_
    exact List.Perm.flatMap_left l' (fun x _ => (tuplesUpTo_perm h d).map _)

theorem mem_tuplesUpTo {γ : Type} (l : List γ) :
    ∀ (d : Nat) (tup : List γ),
      tup ∈ tuplesUpTo l d ↔ tup.length ≤ d ∧ ∀ x ∈ tup, x ∈ l
  | 0, tup => by
    constructor
    · intro h
      have htup : tup = [] := by
        cases h with
        | head => rfl
        | tail _ h' => cases h'
      subst htup
      simp
    · rintro ⟨hlen, -⟩
      have htup : tup = [] := List.length_eq_zero.mp (Nat.le_zero.mp hlen)
      subst htup
      exact List.mem_singleton.mpr rfl
  | d + 1, tup => by
    show tup ∈ ([] : List γ) :: l.flatMap (fun x => (tuplesUpTo l d).map (x :: ·)) ↔ _
    rw [List.mem_cons]
    constructor
    · rintro (rfl | h)
      · exact ⟨Nat.zero_le _, by intro x hx; cases hx⟩
      · rw [List.mem_flatMap] at h
        obtain ⟨x, hx, h⟩ := h
        rw [List.mem_map] at h
        obtain ⟨t', ht', rfl⟩ := h
        obtain ⟨hlen, hmem⟩ := (mem_tuplesUpTo l d t').mp ht'
        refine ⟨Nat.succ_le_succ hlen, ?_⟩
        intro y hy
        rcases List.mem_cons.mp hy with rfl | hy'
        · exact hx
        · exact hmem y hy'
    · rintro ⟨hlen, hmem⟩
      cases tup with
      | nil => exact Or.inl rfl
      | cons x t' =>
        refine Or.inr (List.mem_flatMap.mpr ⟨x, hmem x (List.mem_cons_self x t'), ?_⟩)
        refine List.mem_map.mpr ⟨t', (mem_tuplesUpTo l d t').mpr ⟨?_, ?_⟩, rfl⟩
        · exact Nat.succ_le_succ_iff.mp (by simpa using hlen)
        · exact fun y hy => hmem y (List.mem_cons_of_mem x hy)

theorem mem_tuples1 {α : Type} (kvs : List (Str × α)) (d : Nat) (tup : List (Str × α)) :
    tup ∈ tuples1 kvs d ↔
      1 ≤ tup.length ∧ tup.length ≤ d + 1 ∧ ∀ kv ∈ tup, kv ∈ kvs := by
  rw [tuples1, List.mem_flatMap]
  constructor
  · rintro ⟨kv, hkv, h⟩
    rw [List.mem_map] at h
    obtain ⟨t', ht', rfl⟩ := h
    obtain ⟨hlen, hmem⟩ := (mem_tuplesUpTo kvs d t').mp ht'
    refine ⟨Nat.succ_le_succ (Nat.zero_le _), Nat.succ_le_succ hlen, ?_⟩
    intro y hy
    rcases List.mem_cons.mp hy with rfl | hy'
    · exact hkv
    · exact hmem y hy'
  · rintro ⟨h1, h2, h3⟩
    cases tup with
    | nil => cases h1
    | cons kv t' =>
      refine ⟨kv, h3 kv (List.mem_cons_self kv t'), List.mem_map.mpr
        ⟨t', (mem_tuplesUpTo kvs d t').mpr ⟨?_, ?_⟩, rfl⟩⟩
      · exact Nat.succ_le_succ_iff.mp (by simpa using h2)
      · exact fun y hy => h3 y (List.mem_cons_of_mem kv hy)

theorem driveSpec_map_const {σ α : Type} (D : DFA σ) (hWF : D.WellFormed)
    (s : σ) (w : Str) (y : α) :
    (driveSpec D s w).map (fun _ => y)
      = if D.acceptsFromB s w then some y else none := by
  have h := driveSpec_isSome D hWF w s
  cases hd : driveSpec D s w with
  | none =>
    rw [hd] at h
    simp only [Option.isSome_none] at h
    rw [← h]
    rfl
  | some st =>
    rw [hd] at h
    simp only [Option.isSome_some] at h
    rw [← h]
    rfl

theorem filterMap_ite_eq_filter_map {γ δ : Type} (p : γ → Bool) (g : γ → δ) :
    ∀ (l : List γ),
      (l.filterMap fun x => if p x then some (g x) else none) = (l.filter p).map g
  | [] => rfl
  | x :: xs => by
    by_cases hx : p x = true
    · simp only [List.filterMap_cons, List.filter_cons, hx, reduceIte,
        filterMap_ite_eq_filter_map p g xs, List.map_cons]
    · have hx' : p x = false := by simpa using hx
      simp only [List.filterMap_cons, List.filter_cons, hx', reduceIte,
        filterMap_ite_eq_filter_map p g xs, Bool.false_eq_true]

/-- Payloads of driver yields, in order: the payloads of the accepted leaves. -/
theorem mhdYields_payloads {σ α : Type} (D : DFA σ) (hWF : D.WellFormed) (t : PTree α) :
    (mhdYields D t).map (fun o => o.2.1)
      = ((leavesT t).filter (fun wv => D.acceptsB wv.1)).map Prod.snd := by
  show (drive D t D.start []).map _ = _
  rw [drive_eq_leaves, List.map_filterMap]
  have h : ∀ wv : Str × α,
      ((driveSpec D D.start wv.1).map (fun st => (([] : Str) ++ wv.1, wv.2, st))).map
        (fun o : Str × α × σ => o.2.1)
      = if D.acceptsB wv.1 then some wv.2 else none := by
    intro wv
    rw [Option.map_map]
    exact driveSpec_map_const D hWF D.start wv.1 wv.2
  rw [List.filterMap_congr (fun wv _ => h wv)]
  exact filterMap_ite_eq_filter_map _ _ _

theorem length_flatMap_const {γ δ : Type} (f : γ → List δ) (c : Nat) :
    ∀ (l : List γ), (∀ x ∈ l, (f x).length = c) → (l.flatMap f).length = l.length * c
  | [], _ => by simp
  | x :: xs, h => by
    rw [List.flatMap_cons, List.length_append, h x (List.mem_cons_self x xs),
      length_flatMap_const f c xs (fun y hy => h y (List.mem_cons_of_mem x hy)),
      List.length_cons, Nat.succ_mul]
    omega

/-- **C2** (amended).  Nested search over the trie of distinct non-empty
keys at depth `d` (`NestedNodeIter::next` driven by `MultiHeadDFA::next`):
the multiset of yielded `chain()` values equals the multiset of *reversed*
value tuples taken over the ordered key tuples of length 1 to `d + 1` whose
concatenated byte form is accepted — the original claim's root-to-current
order is the reverse of what `chain()` produces; `tuples1` is exactly the
set of such ordered tuples; and with an all-accepting pattern at depth 1
the driver yields `|kvs| + |kvs|²` results. -/
theorem nested_search_chains {σ α : Type} (D : DFA σ) (kvs : List (Str × α))
    (hWF : D.WellFormed) (hne : ∀ kv ∈ kvs, kv.1 ≠ ([] : Str))
    (hnd : (kvs.map Prod.fst).Nodup) (d : Nat) :
    (((mhdYields D (nestTree (trieOfP kvs) d)).map (fun o => o.2.1) : Multiset (List α))
        = (((tuples1 kvs d).filter (fun tup => D.acceptsB (tup.flatMap Prod.fst))).map
            (fun tup => (tup.map Prod.snd).reverse) : Multiset (List α)))
    ∧ (∀ tup, tup ∈ tuples1 kvs d ↔
        1 ≤ tup.length ∧ tup.length ≤ d + 1 ∧ ∀ kv ∈ tup, kv ∈ kvs)
    ∧ ((∀ w : Str, w ≠ [] → D.acceptsB w = true) → d = 1 →
        (mhdYields D (nestTree (trieOfP kvs) d)).length
          = kvs.length + kvs.length ^ 2) := by
  have hroot : (trieOfP kvs).val = none := trieOfP_val_none kvs hne
  have hlp : (leavesT (trieOfP kvs)).Perm kvs := leavesT_trieOfP_perm kvs hnd
  have key : ∀ d' : Nat,
      ((mhdYields D (nestTree (trieOfP kvs) d')).map (fun o => o.2.1)).Perm
        (((tuples1 kvs d').filter (fun tup => D.acceptsB (tup.flatMap Prod.fst))).map
          (fun tup => (tup.map Prod.snd).reverse)) := by
    intro d'
    rw [mhdYields_payloads D hWF]
    have hnp := leavesT_nestGo_perm (trieOfP kvs) hroot d' (trieOfP kvs) []
    have hform :
        ((leavesT (trieOfP kvs)).flatMap (fun wv =>
          (tuplesUpTo (leavesT (trieOfP kvs)) d').map (fun tup =>
            (wv.1 ++ tup.flatMap Prod.fst, chainRev tup (wv.2 :: ([] : List α))))))
        = ((leavesT (trieOfP kvs)).flatMap (fun wv =>
            (tuplesUpTo (leavesT (trieOfP kvs)) d').map (wv :: ·))).map
          (fun tup => (tup.flatMap Prod.fst, (tup.map Prod.snd).reverse)) := by
      rw [List.map_flatMap]
      refine List.flatMap_congr (fun wv _ => ?_)
      rw [List.map_map]
      refine List.map_congr_left (fun tup _ => ?_)
      simp [chainRev_eq]
    have htup : ((leavesT (trieOfP kvs)).flatMap (fun wv =>
          (tuplesUpTo (leavesT (trieOfP kvs)) d').map (wv :: ·))).Perm
        (tuples1 kvs d') := by
      refine (List.Perm.flatMap_right _ hlp).trans ?_
      exact List.Perm.flatMap_left kvs (fun kv _ => (tuplesUpTo_perm hlp d').map _)
    have hMg := hform ▸ hnp
    have perm1 := (hMg.filter (fun wv : Str × List α => D.acceptsB wv.1)).map
      (Prod.snd (α := Str))
    have E : ((((leavesT (trieOfP kvs)).flatMap (fun wv =>
            (tuplesUpTo (leavesT (trieOfP kvs)) d').map (wv :: ·))).map
          (fun tup => (tup.flatMap Prod.fst, (tup.map Prod.snd).reverse))).filter
            (fun wv => D.acceptsB wv.1)).map Prod.snd
        = (((leavesT (trieOfP kvs)).flatMap (fun wv =>
            (tuplesUpTo (leavesT (trieOfP kvs)) d').map (wv :: ·))).filter
              (fun tup => D.acceptsB (tup.flatMap Prod.fst))).map
            (fun tup => (tup.map Prod.snd).reverse) := by
      rw [List.filter_map, List.map_map]
      rfl
    have perm2 := (htup.filter (fun tup => D.acceptsB (tup.flatMap Prod.fst))).map
      (fun tup => (tup.map Prod.snd).reverse)
    exact perm1.trans (E.symm ▸ perm2)
  refine ⟨Multiset.coe_eq_coe.mpr (key d), fun tup => mem_tuples1 kvs d tup, ?_⟩
  intro hall hd1
  subst hd1
  have hlen := (key 1).length_eq
  rw [List.length_map, List.length_map] at hlen
  have hfilter : (tuples1 kvs 1).filter (fun tup => D.acceptsB (tup.flatMap Prod.fst))
      = tuples1 kvs 1 := by
    refine List.filter_eq_self.mpr (fun tup htup => ?_)
    obtain ⟨h1, -, h3⟩ := (mem_tuples1 kvs 1 tup).mp htup
    cases tup with
    | nil => cases h1
    | cons kv rest =>
      refine hall _ ?_
      show kv.1 ++ rest.flatMap Prod.fst ≠ []
      exact List.append_ne_nil_of_left_ne_nil
        (hne kv (h3 kv (List.mem_cons_self kv rest))) _
  rw [hfilter] at hlen
  have hc1 : (tuplesUpTo kvs 1).length = 1 + kvs.length := by
    show (([] : List (Str × α)) ::
      kvs.flatMap fun x => (tuplesUpTo kvs 0).map (x :: ·)).length = _
    rw [List.length_cons, length_flatMap_const
      (fun x => (tuplesUpTo kvs 0).map (x :: ·)) 1 kvs (fun x _ => rfl)]
    omega
  have hc2 : (tuples1 kvs 1).length = kvs.length * (1 + kvs.length) :=
    length_flatMap_const _ (1 + kvs.length) kvs
      (fun x _ => by rw [List.length_map, hc1])
  rw [hlen, hc2]
  ring

/-- Witness for `nested_search_chains`: two single-byte keys `a ↦ 0`,
`b ↦ 1` against the exact-"ab" DFA at depth 1. -/
theorem nested_search_chains_witness :
    exDFA.WellFormed
    ∧ (∀ kv ∈ [(([97] : Str), 0), ([98], 1)], kv.1 ≠ ([] : Str))
    ∧ (([(([97] : Str), 0), ([98], 1)].map Prod.fst).Nodup)
    ∧ ((((mhdYields exDFA (nestTree (trieOfP [(([97] : Str), 0), ([98], 1)]) 1)).map
          (fun o => o.2.1) : Multiset (List Nat))
        = (((tuples1 [(([97] : Str), 0), ([98], 1)] 1).filter
              (fun tup => exDFA.acceptsB (tup.flatMap Prod.fst))).map
            (fun tup => (tup.map Prod.snd).reverse) : Multiset (List Nat)))
      ∧ (∀ tup, tup ∈ tuples1 [(([97] : Str), 0), ([98], 1)] 1 ↔
          1 ≤ tup.length ∧ tup.length ≤ 1 + 1
            ∧ ∀ kv ∈ tup, kv ∈ [(([97] : Str), 0), ([98], 1)])
      ∧ ((∀ w : Str, w ≠ [] → exDFA.acceptsB w = true) → 1 = 1 →
          (mhdYields exDFA (nestTree (trieOfP [(([97] : Str), 0), ([98], 1)]) 1)).length
            = [(([97] : Str), 0), ([98], 1)].length
              + [(([97] : Str), 0), ([98], 1)].length ^ 2)) :=
  ⟨exDFA_wf, by decide, by decide,
    nested_search_chains exDFA [(([97] : Str), 0), ([98], 1)] exDFA_wf
      (by decide) (by decide) 1⟩

/-- Counterexample to C2's original order: with keys `a ↦ 0`, `b ↦ 1` and
the exact-"ab" DFA at depth 1, the single yielded chain is `[1, 0]` — the
reverse of the accepted ordered key tuple `(a, b)`, whose chain the claim
would make `[0, 1]`. -/
theorem nested_search_chains_counterexample :
    (mhdYields exDFA (nestTree (trieOfP [(([97] : Str), 0), ([98], 1)]) 1)).map
        (fun o => o.2.1) = [[1, 0]]
    ∧ ([[1, 0]] : List (List Nat)) ≠ [[0, 1]] := by
  constructor
  · rfl
  · decide

/-! ### C3: order of `chain()` on a nested match -/

/-- Modelled from the spec: `search_deep` compiles the query pattern with the
external `regex_automata` dense builder, whose code is not part of this
repository.  For the literal pattern `"helloworld"` that DFA is the classic
substring-search automaton: state `s` counts the matched prefix length, a
mismatched byte falls back to the longest border (here `1` on `h`, else `0`,
since `h` never recurs inside the pattern), state `10` is the absorbing match
state, and there are no dead states. -/
def helloDFA : DFA Nat where
  start := 0
  next := fun s b =>
    if s = 0 then (if b = 104 then 1 else 0)
    else if s = 1 then (if b = 101 then 2 else if b = 104 then 1 else 0)
    else if s = 2 then (if b = 108 then 3 else if b = 104 then 1 else 0)
    else if s = 3 then (if b = 108 then 4 else if b = 104 then 1 else 0)
    else if s = 4 then (if b = 111 then 5 else if b = 104 then 1 else 0)
    else if s = 5 then (if b = 119 then 6 else if b = 104 then 1 else 0)
    else if s = 6 then (if b = 111 then 7 else if b = 104 then 1 else 0)
    else if s = 7 then (if b = 114 then 8 else if b = 104 then 1 else 0)
    else if s = 8 then (if b = 108 then 9 else if b = 104 then 1 else 0)
    else if s = 9 then (if b = 100 then 10 else if b = 104 then 1 else 0)
    else 10
  nextEoi := fun s => s
  isMatch := fun s => s == 10
  isDead := fun _ => false

/-- The test library of C3: `hello` is entry `0`, `world` is entry `1`. -/
def helloWorldLib : List (Str × Nat) :=
  [([104, 101, 108, 108, 111], 0), ([119, 111, 114, 108, 100], 1)]

/-- **C3** (code bug).  A Match query for `"helloworld"` at depth 1 over the
library `{hello ↦ 0, world ↦ 1}` yields exactly one result, but its
`chain()` is `[1, 0]` — `Sequence(world, hello)`, current-to-root — not the
claimed root-to-current `Sequence(hello, world)` `[0, 1]`: `chain()` in
`src/librarian/search/nest.rs` walks `parent` links from the current node
and never reverses. -/
theorem nested_chain_order_bug :
    ((mhdYields helloDFA (nestTree (trieOfP helloWorldLib) 1)).map (fun o => o.2.1)
        = [[1, 0]])
    ∧ ([[1, 0]] : List (List Nat)) ≠ [[0, 1]] :=
  ⟨rfl, by decide⟩

/-! ### C9: no view contains a singleton `Sequence`

`LibGram` from `src/librarian/grams.rs`: `Word(index)` or `Sequence(indices)`
(the `PhantomData` lifetime marker carries no data).  `degrade` canonicalizes
a one-element `Sequence`; every `FromIterator` impl for `LibGram` flattens
its items' indices into a `Sequence` and then degrades. -/

inductive LibGram where
  | word (i : Nat)
  | sequence (is : List Nat)
deriving DecidableEq

/-- `LibGram::degrade`: `Sequence(words) if words.len() == 1 => Word(words[0])`. -/
def LibGram.degrade : LibGram → LibGram
  | .sequence [i] => .word i
  | g => g

/-- The index list a gram contributes when collected into a `Sequence`
(the `flat_map` arm of `FromIterator<LibGram> for LibGram` and the loop of
`FromIterator<&LibGram>`). -/
def LibGram.indices : LibGram → List Nat
  | .word i => [i]
  | .sequence is => is

/-- The `FromIterator` impls for `LibGram`: flatten the items' indices into
a `Sequence`, then `degrade`. -/
def LibGram.collect (gs : List LibGram) : LibGram :=
  (LibGram.sequence (gs.flatMap LibGram.indices)).degrade

/-- The view-producing operations of `src/librarian/mod.rs`:
`From<&Library>` maps every seed to `Word(index)`; `search_trie` and
`search_trie_state` collect each yielded `chain()` of leaf grams with the
degrading `FromIterator`; every other query path (`search_flat`, `nearest`,
`distance`, the `anagrams` dispatch incl. `anagrams_partial`'s regrouping)
returns a subset — possibly reordered, possibly cloned — of the grams of an
existing view. -/
inductive ReachableView : List LibGram → Prop
  | ofLibrary (n : Nat) : ReachableView ((List.range n).map .word)
  | collectChains (chains : List (List LibGram)) :
      ReachableView (chains.map LibGram.collect)
  | sublike (v w : List LibGram) : ReachableView v → (∀ g ∈ w, g ∈ v) →
      ReachableView w

theorem degrade_ne_singleton (is : List Nat) (i : Nat) :
    (LibGram.sequence is).degrade ≠ .sequence [i] := by
  match is with
  | [] => simp [LibGram.degrade]
  | [a] => simp [LibGram.degrade]
  | a :: b :: rest => simp [LibGram.degrade]

/-- **C9**.  Every reachable Librarian view is free of one-element
`Sequence` grams: `degrade` is applied whenever a gram is collected from
indices or chains, and the other operations only pass existing grams on. -/
theorem no_singleton_sequence (v : List LibGram) (h : ReachableView v) :
    ∀ g ∈ v, ∀ i, g ≠ .sequence [i] := by
  induction h with
  | ofLibrary n =>
    intro g hg i
    obtain ⟨m, -, rfl⟩ := List.mem_map.mp hg
    simp
  | collectChains chains =>
    intro g hg i
    obtain ⟨c, -, rfl⟩ := List.mem_map.mp hg
    exact degrade_ne_singleton _ i
  | sublike v w hv hw ih =>
    intro g hg i
    exact ih g (hw g hg) i

/-- Witness for `no_singleton_sequence`: the view collecting the single
chain `[Word 3, Word 5]` (its one gram is `Sequence [3, 5]`). -/
theorem no_singleton_sequence_witness :
    ReachableView ([[LibGram.word 3, LibGram.word 5]].map LibGram.collect)
    ∧ ∀ g ∈ [[LibGram.word 3, LibGram.word 5]].map LibGram.collect,
        ∀ i, g ≠ .sequence [i] :=
  ⟨ReachableView.collectChains _,
    no_singleton_sequence _ (ReachableView.collectChains _)⟩

/-! ### C6: the deep anagram dispatch -/

/-- Bytes of a gram: the concatenation of the root strings of its indices
(as in `LibGram::as_gram`, the key of `Trie::from(&Librarian)` and the text
compared by `anagrams_flat`).  A library is its list of root byte strings
indexed by seed index; chars are identified with single-byte (ASCII)
codepoints throughout. -/
def gramBytes (lib : List Str) : LibGram → Str
  | .word i => lib.getD i []
  | .sequence is => is.flatMap (fun i => lib.getD i [])

/-- `.chars().sorted()` / `.bytes().sorted()` as used by `anagrams_flat`. -/
def sortBytes (w : Str) : Str := List.insertionSort (· ≤ ·) w

/-- `Librarian::anagrams_flat` (in a release build its `debug_assert`s on
wildcards, repeats and the partial flag are no-ops): keep exactly the grams
whose sorted bytes equal the sorted pattern bytes. -/
def anagramsFlat (lib : List Str) (pattern : Str) (grams : List LibGram) :
    List LibGram :=
  grams.filter (fun g => sortBytes (gramBytes lib g) == sortBytes pattern)

/-- The per-candidate filter of `Librarian::anagrams_partial`: each byte's
count excess over the pattern must be covered by the wildcard budget
(`wildcards -= count - pcount`, reject once negative). -/
def excessCount (pattern cand : Str) : Nat :=
  (cand.dedup.map (fun b => cand.count b - pattern.count b)).sum

def partialCheckOk (wildcards : Nat) (pattern cand : Str) : Bool :=
  excessCount pattern cand ≤ wildcards

/-- Modelled from the spec: `anagram_filter(pattern)` compiles the regex
`^[pattern]{n}$` (`n` = pattern length) with the external `regex_automata`
crate.  That DFA counts accepted bytes: state `s ≤ n` counts bytes seen, all
of which must be pattern bytes, `n + 1` is the dead state, and only the
end-of-input transition out of state `n` enters the match state `n + 2`. -/
def filterDFA (pattern : Str) : DFA Nat where
  start := 0
  next := fun s b =>
    if s < pattern.length ∧ pattern.contains b then s + 1 else pattern.length + 1
  nextEoi := fun s =>
    if s = pattern.length then pattern.length + 2 else pattern.length + 1
  isMatch := fun s => s == pattern.length + 2
  isDead := fun s => s == pattern.length + 1

/-- `Librarian::anagrams_deep`: trie of the view keyed by gram bytes, the
anagram-filter DFA driven `repeats` deep, each yielded chain collected with
the degrading `FromIterator`. -/
def anagramsDeep (lib : List Str) (grams : List LibGram) (pattern : Str)
    (repeats : Nat) : List LibGram :=
  (mhdYields (filterDFA pattern)
    (nestTree (trieOfP (grams.map (fun g => (gramBytes lib g, g)))) repeats)).map
    (fun o => LibGram.collect o.2.1)

/-- The `repeats > 0 && (wildcards > 0 || pattern.len() >= 8)` branch of
`Librarian::anagrams`: first pass `anagrams_deep`, then post-filter with
`anagrams_flat` on the query `repeating(0)` — the query's partial flag and
wildcard count play no further part. -/
def anagramsDeepPath (lib : List Str) (grams : List LibGram) (pattern : Str)
    (repeats : Nat) : List LibGram :=
  anagramsFlat lib pattern (anagramsDeep lib grams pattern repeats)

theorem sortBytes_eq_iff_perm (x y : Str) :
    sortBytes x = sortBytes y ↔ x.Perm y := by
  constructor
  · intro h
    have h1 : (sortBytes y).Perm y := List.perm_insertionSort _ y
    rw [← h] at h1
    exact ((show (sortBytes x).Perm x from List.perm_insertionSort _ x).symm).trans h1
  · intro h
    have hperm : (sortBytes x).Perm (sortBytes y) :=
      (show (sortBytes x).Perm x from List.perm_insertionSort _ x).trans
        (h.trans (show y.Perm (sortBytes y) from (List.perm_insertionSort _ y).symm))
    have hs1 : List.Sorted (· ≤ ·) (sortBytes x) := List.sorted_insertionSort (· ≤ ·) x
    have hs2 : List.Sorted (· ≤ ·) (sortBytes y) := List.sorted_insertionSort (· ≤ ·) y
    exact List.eq_of_perm_of_sorted hperm hs1 hs2

/-- **C6** (amended).  On the deep anagram path the returned grams are
exactly the first-pass candidates that pass the *exact* anagram check —
their bytes a permutation of (equal histogram with) the pattern's — whatever
the query's partial flag or wildcard count: the post-filter is always the
sorted-equality `anagrams_flat`, never the partial histogram check. -/
theorem anagrams_deep_exact_only (lib : List Str) (grams : List LibGram)
    (pattern : Str) (repeats : Nat) (g : LibGram) :
    g ∈ anagramsDeepPath lib grams pattern repeats ↔
      g ∈ anagramsDeep lib grams pattern repeats
        ∧ (gramBytes lib g).Perm pattern := by
  rw [anagramsDeepPath, anagramsFlat, List.mem_filter]
  constructor
  · rintro ⟨hm, hp⟩
    exact ⟨hm, (sortBytes_eq_iff_perm _ _).mp (by simpa using hp)⟩
  · rintro ⟨hm, hp⟩
    exact ⟨hm, by simpa using (sortBytes_eq_iff_perm _ _).mpr hp⟩

/-- Counterexample to C6's original post-filter: query
`{pattern = "aabb", wildcards = 2, partial = true, repeats = 1}` over the
library `["aaab"]`.  The candidate `Word 0` passes the anagram-filter first
pass and passes the partial histogram check with the query's two wildcards,
yet the code returns nothing: the post-filter is the exact check. -/
theorem anagrams_deep_partial_counterexample :
    anagramsDeepPath [[97, 97, 97, 98]] [LibGram.word 0] [97, 97, 98, 98] 1 = []
    ∧ anagramsDeep [[97, 97, 97, 98]] [LibGram.word 0] [97, 97, 98, 98] 1
        = [LibGram.word 0]
    ∧ partialCheckOk 2 [97, 97, 98, 98]
        (gramBytes [[97, 97, 97, 98]] (LibGram.word 0)) = true :=
  ⟨rfl, rfl, rfl⟩

/-! ## The Thompson NFA builder

`levenshtein` and `anagram` in `src/librarian/search/automata.rs` construct
NFAs through the external `regex_automata` Thompson `Builder`.  Modelled
from the spec of that builder: states live in a vector addressed by
insertion order; `add_empty`, `add_range`, `add_union`, `add_look` and
`add_match` append a state and return its id; `patch(from, to)` *sets* the
target of an `Empty`, `ByteRange` or `Look` state — overwriting any earlier
target — and *pushes* `to` onto the alternatives of a `Union` state;
`start_pattern` hands out consecutive pattern ids and `add_match` tags its
state with the current one.  Byte strings: chars are identified with
single-byte (ASCII) codepoints. -/

inductive BState where
  | emptyS (next : Nat)
  | byteRange (lo hi next : Nat)
  | unionS (alts : List Nat)
  | lookStart (next : Nat)
  | lookEnd (next : Nat)
  | matchS (pid : Nat)
deriving DecidableEq

structure NBuilder where
  states : List BState
  nPats : Nat
deriving DecidableEq

def NBuilder.empty : NBuilder := ⟨[], 0⟩

def NBuilder.addState (b : NBuilder) (s : BState) : NBuilder × Nat :=
  ({ b with states := b.states ++ [s] }, b.states.length)

def NBuilder.addEmpty (b : NBuilder) : NBuilder × Nat := b.addState (.emptyS 0)

def NBuilder.addRange (b : NBuilder) (lo hi nxt : Nat) : NBuilder × Nat :=
  b.addState (.byteRange lo hi nxt)

def NBuilder.addUnion (b : NBuilder) (alts : List Nat) : NBuilder × Nat :=
  b.addState (.unionS alts)

def NBuilder.addLookStart (b : NBuilder) (nxt : Nat) : NBuilder × Nat :=
  b.addState (.lookStart nxt)

def NBuilder.addLookEnd (b : NBuilder) (nxt : Nat) : NBuilder × Nat :=
  b.addState (.lookEnd nxt)

def NBuilder.startPattern (b : NBuilder) : NBuilder × Nat :=
  ({ b with nPats := b.nPats + 1 }, b.nPats)

def NBuilder.addMatch (b : NBuilder) : NBuilder × Nat :=
  b.addState (.matchS (b.nPats - 1))

/-- `Builder::patch`: overwrite the single target of `Empty`, `ByteRange`
and `Look` states, append to a `Union`'s alternates.  (Patching a match
state panics in the crate; it is never exercised here.) -/
def patchState (s : BState) (t : Nat) : BState :=
  match s with
  | .emptyS _ => .emptyS t
  | .byteRange lo hi _ => .byteRange lo hi t
  | .unionS alts => .unionS (alts ++ [t])
  | .lookStart _ => .lookStart t
  | .lookEnd _ => .lookEnd t
  | .matchS p => .matchS p

def NBuilder.patch (b : NBuilder) (f t : Nat) : NBuilder :=
  { b with states := b.states.set f (patchState (b.states.getD f (.unionS [])) t) }

/-- Modelled from the spec: `regex_syntax`'s `Utf8Sequences` for a single
ASCII scalar is the one-element range sequence. -/
def utf8Single (c : Nat) : List (List (Nat × Nat)) := [[(c, c)]]

/-- Modelled from the spec: `Utf8Sequences::new(char::MIN, char::MAX)` — the
standard partition of all UTF-8 encodings of scalar values into byte-range
sequences.  Only the first (ASCII) sequence can consume ASCII input; the
multi-byte branches are built faithfully but never complete on the ASCII
strings evaluated here. -/
def utf8AnyChar : List (List (Nat × Nat)) :=
  [[(0x00, 0x7F)],
   [(0xC2, 0xDF), (0x80, 0xBF)],
   [(0xE0, 0xE0), (0xA0, 0xBF), (0x80, 0xBF)],
   [(0xE1, 0xEC), (0x80, 0xBF), (0x80, 0xBF)],
   [(0xED, 0xED), (0x80, 0x9F), (0x80, 0xBF)],
   [(0xEE, 0xEF), (0x80, 0xBF), (0x80, 0xBF)],
   [(0xF0, 0xF0), (0x90, 0xBF), (0x80, 0xBF), (0x80, 0xBF)],
   [(0xF1, 0xF3), (0x80, 0xBF), (0x80, 0xBF), (0x80, 0xBF)],
   [(0xF4, 0xF4), (0x80, 0x8F), (0x80, 0xBF), (0x80, 0xBF)]]

/-- `build_utf8_sequences` from `automata.rs`: an `Empty` end state, one
byte-range chain per sequence built back to front, and a `Union` start over
the chain heads. -/
def buildUtf8 (b : NBuilder) (seqs : List (List (Nat × Nat))) :
    NBuilder × Nat × Nat :=
  let (b, stEnd) := b.addEmpty
  let (b, chains) := seqs.foldl
    (fun (acc : NBuilder × List Nat) seq =>
      let (b, ts) := acc
      let (b, start) := seq.reverse.foldl
        (fun (acc2 : NBuilder × Nat) rg =>
          let (b, nxt) := acc2
          b.addRange rg.1 rg.2 nxt)
        (b, stEnd)
      (b, ts ++ [start]))
    (b, ([] : List Nat))
  let (b, stStart) := b.addUnion chains
  (b, stStart, stEnd)

/-- `pattern_layer` from `automata.rs`: the `|p|+1` column states of one
edit layer (unions, in pattern order), plus the `Look::End`-guarded match
entry when this layer's distance is enabled. -/
def patternLayer (b : NBuilder) (pattern : Str) (matchStart : Option Nat) :
    NBuilder × List Nat × Option Nat :=
  let (b, stEnd) := b.addUnion []
  let (b, pidOpt) :=
    match matchStart with
    | some _ =>
      let (b, pid) := b.startPattern
      let (b, stMatch) := b.addMatch
      let (b, endLook) := b.addLookEnd stMatch
      let b := b.patch stEnd endLook
      (b, some pid)
    | none => (b, none)
  let (b, states, nxt) := pattern.reverse.foldl
    (fun (acc : NBuilder × List Nat × Nat) c =>
      let (b, states, nxt) := acc
      let (b, startSeq, endSeq) := buildUtf8 b (utf8Single c)
      let b := b.patch endSeq nxt
      let states := states ++ [nxt]
      let (b, nxt') := b.addUnion [startSeq]
      (b, states, nxt'))
    (b, ([] : List Nat), stEnd)
  (b, (states ++ [nxt]).reverse, pidOpt)

/-- `levenshtein` from `automata.rs` up to the NFA (the dense-DFA
determinization and the pattern-id → distance table are external): layer 0
is the plain pattern, and each further layer is wired from the previous one
column by column — any-char gadget patched in, its `Empty` end state first
patched to the same column (insertion) and then, for every non-final
column, *re*-patched to the next column (substitution) with an epsilon
alternative for deletion.  Returns the builder and the start state. -/
def levBuild (pattern : Str) (distances : List Nat) : NBuilder × Nat :=
  let b := NBuilder.empty
  let (b, stStart) := b.addEmpty
  let (b, layer0, _) :=
    patternLayer b pattern (if distances.contains 0 then some stStart else none)
  let b := b.patch stStart (layer0.getD 0 0)
  let maxd := distances.foldr Nat.max 0
  let (b, _) := (List.range maxd).foldl
    (fun (acc : NBuilder × List Nat) i =>
      let d := i + 1
      let (b, layerPrev) := acc
      let (b, layer, _) :=
        patternLayer b pattern (if distances.contains d then some stStart else none)
      let pairs := layerPrev.zip layer
      let b := (List.range pairs.length).foldl
        (fun b j =>
          let pr := pairs.getD j (0, 0)
          let (b, startA, endA) := buildUtf8 b utf8AnyChar
          let b := b.patch pr.1 startA
          let b := b.patch endA pr.2
          if j + 1 < pairs.length then
            let nxt := (pairs.getD (j + 1) (0, 0)).2
            let b := b.patch endA nxt
            b.patch pr.1 nxt
          else b)
        b
      (b, layer))
    (b, layer0)
  (b, stStart)

/-! ### Running the built NFA

A worklist epsilon closure (bounded by fuel, early exit on empty frontier)
and a per-byte step; `Look::Start` passes only at position 0, `Look::End`
only at end of input; acceptance means a match state is reachable once the
whole string is consumed. -/

def cloNbrs (states : List BState) (atStart atEnd : Bool) (sid : Nat) : List Nat :=
  match states.getD sid (.unionS []) with
  | .emptyS nxt => [nxt]
  | .unionS alts => alts
  | .lookStart nxt => if atStart then [nxt] else []
  | .lookEnd nxt => if atEnd then [nxt] else []
  | _ => []

def nfaClo (states : List BState) (atStart atEnd : Bool) :
    Nat → List Nat → List Nat → List Nat
  | 0, _, vis => vis
  | _ + 1, [], vis => vis
  | fuel + 1, sid :: rest, vis =>
    if vis.contains sid then nfaClo states atStart atEnd fuel rest vis
    else nfaClo states atStart atEnd fuel
      (cloNbrs states atStart atEnd sid ++ rest) (vis ++ [sid])

def cloFuel (states : List BState) : Nat :=
  (states.length + 1) * (states.length + 1)

def stepConfigs (states : List BState) (cfgs : List Nat) (b : Nat) : List Nat :=
  cfgs.flatMap (fun sid =>
    match states.getD sid (.unionS []) with
    | .byteRange lo hi nxt => if lo ≤ b ∧ b ≤ hi then [nxt] else []
    | _ => [])

def isMatchSid (states : List BState) (sid : Nat) : Bool :=
  match states.getD sid (.unionS []) with
  | .matchS _ => true
  | _ => false

def nfaGo (states : List BState) : List Nat → Str → List Nat
  | cfgs, [] => cfgs
  | cfgs, b :: rest =>
    nfaGo states
      (nfaClo states false rest.isEmpty (cloFuel states) (stepConfigs states cfgs b) [])
      rest

def nfaAccepts (states : List BState) (startId : Nat) (w : Str) : Bool :=
  (nfaGo states
    (nfaClo states true w.isEmpty (cloFuel states) [startId] []) w).any
    (isMatchSid states)

/-- The Levenshtein NFA of C4/C5: pattern `"ab"`, distances `{0, 1}`. -/
def levAB : NBuilder × Nat := levBuild [97, 98] [0, 1]

set_option maxRecDepth 200000 in
/-- **C4** (code bug).  `levenshtein("ab", 0..=1)` rejects `"axb"` although
it is one insertion (Levenshtein distance 1, enabled) away from the
pattern: in the layer-wiring loop the shared any-char `Empty` end state is
patched to the same column (insertion) and then *overwritten* to the next
column for every non-final pattern position, so only end-of-pattern
insertions survive — `"ab"`, the deletion `"a"` and the trailing insertion
`"abx"` are accepted as expected. -/
theorem levenshtein_insert_bug :
    ([97, 120, 98] : Str) = List.take 1 [97, 98] ++ [120] ++ List.drop 1 [97, 98]
    ∧ nfaAccepts levAB.1.states levAB.2 [97, 120, 98] = false
    ∧ nfaAccepts levAB.1.states levAB.2 [97, 98] = true
    ∧ nfaAccepts levAB.1.states levAB.2 [97] = true
    ∧ nfaAccepts levAB.1.states levAB.2 [97, 98, 120] = true := by
  refine ⟨rfl, ?_, ?_, ?_, ?_⟩ <;> decide

/-! ### C5: `nearest` and `NoNearest`

`Librarian::nearest` builds `levenshtein(pattern, 0..=distance)`, feeds the
determinized DFA to `search_trie_state` at depth 0 and fails with
`Error::NoNearest(distance)` exactly when that search yields no candidate.
The subset construction below runs the Thompson NFA as a DFA over config
sets, so the driver sees the same per-word acceptance the dense DFA has. -/

def detDFA (states : List BState) (startId : Nat) : DFA (List Nat) where
  start := nfaClo states true false (cloFuel states) [startId] []
  next := fun s b => nfaClo states false false (cloFuel states) (stepConfigs states s b) []
  nextEoi := fun s => nfaClo states false true (cloFuel states) s []
  isMatch := fun s => s.any (isMatchSid states)
  isDead := fun s => s.isEmpty

set_option maxRecDepth 400000 in
/-- **C5** (code bug).  Over the view `{"axb" ↦ 0}` the query
`Nearest{pattern: "ab", distance: 1}` produces *no* search candidate — the
Levenshtein DFA of C4 rejects `"axb"` although it is one insertion from
`"ab"` — so `nearest` returns `Err(NoNearest(1))` where the claim requires
`Ok(1, {"axb"})`. -/
theorem nearest_misses_close_word :
    mhdYields (detDFA levAB.1.states levAB.2) (nestTree (trieOfP [([97, 120, 98], 0)]) 0) = []
    ∧ ([97, 120, 98] : Str) = List.take 1 [97, 98] ++ [120] ++ List.drop 1 [97, 98] := by
  refine ⟨?_, rfl⟩
  decide

/-! ### C7: the anagram permutation NFA

`anagram` in `automata.rs`: one union boundary behind a `Look::Start`, one
byte chain per permutation of the pattern, every chain ending in the
`Look::End`-guarded match state.  `itertools`' `permutations(len)` yields
every index ordering; membership in it coincides with `List.permutations`'.
The external determinization preserves the language, so the built DFA's
language is the NFA language characterized here. -/

def permsOf (p : Str) : List Str := p.permutations

def addRangeStep (acc : NBuilder × Nat) (c : Nat) : NBuilder × Nat :=
  acc.1.addRange c c acc.2

/-- The loop body of `anagram`: build one permutation's byte chain back to
front from `state_end`, then patch its head into the boundary union. -/
def addPermChain (stEnd stBoundary : Nat) (b : NBuilder) (perm : Str) : NBuilder :=
  let r := perm.reverse.foldl addRangeStep (b, stEnd)
  r.1.patch stBoundary r.2

/-- `anagram(pattern)` up to the NFA (the dense determinization is
external). -/
def anagramBuild (pattern : Str) : NBuilder × Nat :=
  let b := NBuilder.empty
  let (b, _pid) := b.startPattern
  let (b, stBoundary) := b.addUnion []
  let (b, stStart) := b.addLookStart stBoundary
  let (b, stMatch) := b.addMatch
  let (b, stEnd) := b.addLookEnd stMatch
  let b := (permsOf pattern).foldl (addPermChain stEnd stBoundary) b
  (b, stStart)

/-- The four fixed states `anagram` lays down before any chain:
boundary union (0), `Look::Start` entry (1), match (2), `Look::End` (3). -/
def preludeB : NBuilder :=
  ⟨[.unionS [], .lookStart 0, .matchS 0, .lookEnd 2], 1⟩

theorem anagramBuild_eq (p : Str) :
    anagramBuild p = ((permsOf p).foldl (addPermChain 3 0) preludeB, 1) := rfl

/-- Acceptance in a Thompson NFA as built here: a derivation consumes the
string from a state; `Look::Start` passes only while no byte has been read
(the flag), `Look::End` and match only at end of input. -/
inductive NAccepts (states : List BState) : Bool → Nat → Str → Prop where
  | step_empty {fl sid nxt w} :
      states.getD sid (.unionS []) = .emptyS nxt →
      NAccepts states fl nxt w → NAccepts states fl sid w
  | step_union {fl sid alts t w} :
      states.getD sid (.unionS []) = .unionS alts → t ∈ alts →
      NAccepts states fl t w → NAccepts states fl sid w
  | step_range {fl sid lo hi nxt b w} :
      states.getD sid (.unionS []) = .byteRange lo hi nxt →
      lo ≤ b → b ≤ hi →
      NAccepts states false nxt w → NAccepts states fl sid (b :: w)
  | step_look_start {sid nxt w} :
      states.getD sid (.unionS []) = .lookStart nxt →
      NAccepts states true nxt w → NAccepts states true sid w
  | step_look_end {fl sid nxt} :
      states.getD sid (.unionS []) = .lookEnd nxt →
      NAccepts states fl nxt [] → NAccepts states fl sid []
  | step_match {fl sid pid} :
      states.getD sid (.unionS []) = .matchS pid →
      NAccepts states fl sid []

/-- A byte chain from state `h` spelling `q` into the end-look state 3. -/
inductive ChainTo (st : List BState) : Nat → Str → Prop where
  | nil : ChainTo st 3 []
  | cons {h c nxt q} :
      st.getD h (.unionS []) = .byteRange c c nxt →
      ChainTo st nxt q → ChainTo st h (c :: q)

theorem getD_append_lt {l ext : List BState} {i : Nat} (h : i < l.length)
    (d : BState) : (l ++ ext).getD i d = l.getD i d := by
  simp [List.getD_eq_getElem?_getD, List.getElem?_append_left h]

theorem getD_snoc_len (l : List BState) (x d : BState) :
    (l ++ [x]).getD l.length d = x := by
  simp [List.getD_eq_getElem?_getD]

theorem getD_set_ne {l : List BState} {i j : Nat} (h : i ≠ j) (x d : BState) :
    (l.set i x).getD j d = l.getD j d := by
  simp [List.getD_eq_getElem?_getD, List.getElem?_set_ne h]

theorem getD_set_self {l : List BState} {i : Nat} (h : i < l.length)
    (x d : BState) : (l.set i x).getD i d = x := by
  simp [List.getD_eq_getElem?_getD, List.getElem?_set_self, h]

theorem ChainTo.appendExt {st : List BState} (ext : List BState) :
    ∀ {h : Nat} {q : Str}, ChainTo st h q → ChainTo (st ++ ext) h q
  | _, _, .nil => .nil
  | h, _, .cons hr hrest => by
    refine .cons ?_ (ChainTo.appendExt ext hrest)
    have hlt : h < st.length := by
      by_contra hge
      rw [List.getD_eq_default _ _ (Nat.le_of_not_lt hge)] at hr
      exact BState.noConfusion hr
    rw [getD_append_lt hlt]
    exact hr

theorem ChainTo.setZero {st : List BState} {x : BState}
    (h0 : ∃ alts, st.getD 0 (.unionS []) = .unionS alts) :
    ∀ {h : Nat} {q : Str}, ChainTo st h q → ChainTo (st.set 0 x) h q
  | _, _, .nil => .nil
  | h, _, .cons hr hrest => by
    refine .cons ?_ (ChainTo.setZero h0 hrest)
    have hne : (0 : Nat) ≠ h := by
      rintro rfl
      obtain ⟨alts, halts⟩ := h0
      rw [halts] at hr
      exact BState.noConfusion hr
    rw [getD_set_ne hne]
    exact hr

/-- The boundary's alternates line up with the chains laid down so far. -/
inductive HeadsFor (st : List BState) : List Nat → List Str → Prop where
  | nil : HeadsFor st [] []
  | cons {h q hs qs} : ChainTo st h q → HeadsFor st hs qs →
      HeadsFor st (h :: hs) (q :: qs)

theorem HeadsFor.snoc {st : List BState} {hs : List Nat} {qs : List Str}
    {h : Nat} {q : Str} (hH : HeadsFor st hs qs) (hc : ChainTo st h q) :
    HeadsFor st (hs ++ [h]) (qs ++ [q]) := by
  induction hH with
  | nil => exact .cons hc .nil
  | cons hc' _ ih => exact .cons hc' ih

theorem HeadsFor.appendExtAll {st : List BState} (ext : List BState)
    {hs : List Nat} {qs : List Str} (hH : HeadsFor st hs qs) :
    HeadsFor (st ++ ext) hs qs := by
  induction hH with
  | nil => exact .nil
  | cons hc _ ih => exact .cons (hc.appendExt ext) ih

theorem HeadsFor.setZeroAll {st : List BState} {x : BState} {hs : List Nat}
    {qs : List Str} (h0 : ∃ alts, st.getD 0 (.unionS []) = .unionS alts)
    (hH : HeadsFor st hs qs) : HeadsFor (st.set 0 x) hs qs := by
  induction hH with
  | nil => exact .nil
  | cons hc _ ih => exact .cons (hc.setZero h0) ih

theorem HeadsFor.mem_left {st : List BState} {hs : List Nat} {qs : List Str}
    {t : Nat} (hH : HeadsFor st hs qs) (ht : t ∈ hs) :
    ∃ q ∈ qs, ChainTo st t q := by
  induction hH with
  | nil => cases ht
  | cons hc hrest ih =>
    rcases List.mem_cons.mp ht with rfl | ht'
    · exact ⟨_, List.mem_cons_self _ _, hc⟩
    · obtain ⟨q, hq, hcq⟩ := ih ht'
      exact ⟨q, List.mem_cons_of_mem _ hq, hcq⟩

theorem HeadsFor.mem_right {st : List BState} {hs : List Nat} {qs : List Str}
    {q : Str} (hH : HeadsFor st hs qs) (hq : q ∈ qs) :
    ∃ t ∈ hs, ChainTo st t q := by
  induction hH with
  | nil => cases hq
  | cons hc hrest ih =>
    rcases List.mem_cons.mp hq with rfl | hq'
    · exact ⟨_, List.mem_cons_self _ _, hc⟩
    · obtain ⟨t, ht, hct⟩ := ih hq'
      exact ⟨t, List.mem_cons_of_mem _ ht, hct⟩

/-- The star shape `anagram` maintains: prelude states in place, boundary
union listing one chain head per permutation processed. -/
def StarInv (st : List BState) (qs : List Str) : Prop :=
  4 ≤ st.length
  ∧ st.getD 1 (.unionS []) = .lookStart 0
  ∧ st.getD 2 (.unionS []) = .matchS 0
  ∧ st.getD 3 (.unionS []) = .lookEnd 2
  ∧ ∃ heads, st.getD 0 (.unionS []) = .unionS heads ∧ HeadsFor st heads qs

theorem revFold_spec : ∀ (rq : Str) (b : NBuilder) (nxt : Nat) (s : Str),
    ChainTo b.states nxt s →
    ∃ ext, (rq.foldl addRangeStep (b, nxt)).1.states = b.states ++ ext
      ∧ (rq.foldl addRangeStep (b, nxt)).1.nPats = b.nPats
      ∧ ChainTo (rq.foldl addRangeStep (b, nxt)).1.states
          (rq.foldl addRangeStep (b, nxt)).2 (rq.reverse ++ s)
  | [], b, nxt, s, hc => ⟨[], by simp, rfl, by simpa using hc⟩
  | c :: rest, b, nxt, s, hc => by
    have hstep : (c :: rest).foldl addRangeStep (b, nxt)
        = rest.foldl addRangeStep (b.addRange c c nxt) := rfl
    have hchain1 : ChainTo (b.addRange c c nxt).1.states
        (b.addRange c c nxt).2 (c :: s) := by
      refine ChainTo.cons ?_ (hc.appendExt _)
      show (b.states ++ [BState.byteRange c c nxt]).getD b.states.length _ = _
      exact getD_snoc_len _ _ _
    obtain ⟨ext, he, hp, hcf⟩ :=
      revFold_spec rest (b.addRange c c nxt).1 (b.addRange c c nxt).2 (c :: s) hchain1
    refine ⟨.byteRange c c nxt :: ext, ?_, ?_, ?_⟩
    · rw [hstep]
      refine he.trans ?_
      show (b.states ++ [.byteRange c c nxt]) ++ ext = _
      rw [List.append_assoc]
      rfl
    · rw [hstep]
      exact hp
    · rw [hstep]
      have : rest.reverse ++ (c :: s) = (c :: rest).reverse ++ s := by
        rw [List.reverse_cons, List.append_assoc]
        rfl
      rw [← this]
      exact hcf

theorem addPermChain_inv {b : NBuilder} {qs : List Str} (q : Str)
    (hInv : StarInv b.states qs) :
    StarInv (addPermChain 3 0 b q).states (qs ++ [q]) := by
  obtain ⟨hlen, h1, h2, h3, heads, h0, hH⟩ := hInv
  obtain ⟨ext, he, -, hcf⟩ := revFold_spec q.reverse b 3 [] ChainTo.nil
  have hcf' : ChainTo (q.reverse.foldl addRangeStep (b, 3)).1.states
      (q.reverse.foldl addRangeStep (b, 3)).2 q := by simpa using hcf
  have h0' : (q.reverse.foldl addRangeStep (b, 3)).1.states.getD 0 (.unionS [])
      = .unionS heads := by
    rw [he, getD_append_lt (Nat.lt_of_lt_of_le (by omega) hlen)]
    exact h0
  have hset : (addPermChain 3 0 b q).states
      = (q.reverse.foldl addRangeStep (b, 3)).1.states.set 0
          (.unionS (heads ++ [(q.reverse.foldl addRangeStep (b, 3)).2])) := by
    show (q.reverse.foldl addRangeStep (b, 3)).1.states.set 0
        (patchState ((q.reverse.foldl addRangeStep (b, 3)).1.states.getD 0
          (.unionS [])) _) = _
    rw [h0']
    rfl
  have hlen' : 4 ≤ (q.reverse.foldl addRangeStep (b, 3)).1.states.length := by
    rw [he, List.length_append]
    omega
  refine ⟨?_, ?_, ?_, ?_, heads ++ [(q.reverse.foldl addRangeStep (b, 3)).2], ?_, ?_⟩
  · rw [hset, List.length_set]
    exact hlen'
  · rw [hset, getD_set_ne (by omega), he,
      getD_append_lt (Nat.lt_of_lt_of_le (by omega) hlen)]
    exact h1
  · rw [hset, getD_set_ne (by omega), he,
      getD_append_lt (Nat.lt_of_lt_of_le (by omega) hlen)]
    exact h2
  · rw [hset, getD_set_ne (by omega), he,
      getD_append_lt (Nat.lt_of_lt_of_le (by omega) hlen)]
    exact h3
  · rw [hset, getD_set_self (Nat.lt_of_lt_of_le (by omega) hlen')]
  · rw [hset]
    have hH1 : HeadsFor (q.reverse.foldl addRangeStep (b, 3)).1.states heads qs := by
      rw [he]
      exact hH.appendExtAll ext
    exact (hH1.snoc hcf').setZeroAll ⟨heads, h0'⟩

theorem foldl_inv : ∀ (qs' : List Str) (b : NBuilder) (qs : List Str),
    StarInv b.states qs →
    StarInv ((qs'.foldl (addPermChain 3 0) b)).states (qs ++ qs')
  | [], b, qs, h => by simpa using h
  | q :: rest, b, qs, h => by
    have h1 := addPermChain_inv (b := b) q h
    have h2 := foldl_inv rest (addPermChain 3 0 b q) (qs ++ [q]) h1
    have : qs ++ [q] ++ rest = qs ++ (q :: rest) := by
      rw [List.append_assoc]
      rfl
    rw [this] at h2
    exact h2

theorem prelude_inv : StarInv preludeB.states [] :=
  ⟨by decide, rfl, rfl, rfl, [], rfl, HeadsFor.nil⟩

theorem chain_sound {st : List BState} {h : Nat} {q : Str}
    (hc : ChainTo st h q)
    (h3 : st.getD 3 (.unionS []) = .lookEnd 2)
    (_h2 : st.getD 2 (.unionS []) = .matchS 0) :
    ∀ {fl : Bool} {w : Str}, NAccepts st fl h w → w = q := by
  induction hc with
  | nil =>
    intro fl w ha
    cases ha with
    | step_empty hf _ => rw [h3] at hf; exact BState.noConfusion hf
    | step_union hf _ _ => rw [h3] at hf; exact BState.noConfusion hf
    | step_range hf _ _ _ => rw [h3] at hf; exact BState.noConfusion hf
    | step_look_start hf _ => rw [h3] at hf; exact BState.noConfusion hf
    | step_look_end hf _ => rfl
    | step_match _ => rfl
  | cons hr hrest ih =>
    intro fl w ha
    cases ha with
    | step_empty hf _ => rw [hr] at hf; exact BState.noConfusion hf
    | step_union hf _ _ => rw [hr] at hf; exact BState.noConfusion hf
    | step_look_start hf _ => rw [hr] at hf; exact BState.noConfusion hf
    | step_look_end hf _ => rw [hr] at hf; exact BState.noConfusion hf
    | step_match hf => rw [hr] at hf; exact BState.noConfusion hf
    | step_range hf hlo hhi hnext =>
      rw [hr] at hf
      injection hf with hlo' hhi' hnxt'
      subst hlo'
      subst hhi'
      subst hnxt'
      rw [Nat.le_antisymm hhi hlo, ih hnext]

theorem chain_complete {st : List BState} {h : Nat} {q : Str}
    (hc : ChainTo st h q)
    (h3 : st.getD 3 (.unionS []) = .lookEnd 2)
    (h2 : st.getD 2 (.unionS []) = .matchS 0) :
    ∀ fl : Bool, NAccepts st fl h q := by
  induction hc with
  | nil => exact fun fl => .step_look_end h3 (.step_match h2)
  | cons hr _ ih =>
    exact fun fl => .step_range hr (Nat.le_refl _) (Nat.le_refl _) (ih false)

/-- The language of the built NFA: exactly the permutation list. -/
theorem anagram_lang (p w : Str) :
    NAccepts ((permsOf p).foldl (addPermChain 3 0) preludeB).states true 1 w
      ↔ w ∈ permsOf p := by
  have hInv := foldl_inv (permsOf p) preludeB [] prelude_inv
  rw [List.nil_append] at hInv
  obtain ⟨hlen, h1, h2, h3, heads, h0, hH⟩ := hInv
  constructor
  · intro ha
    cases ha with
    | step_empty hf _ => rw [h1] at hf; exact BState.noConfusion hf
    | step_union hf _ _ => rw [h1] at hf; exact BState.noConfusion hf
    | step_look_end hf _ => rw [h1] at hf; exact BState.noConfusion hf
    | step_match hf => rw [h1] at hf; exact BState.noConfusion hf
    | step_range hf _ _ _ => rw [h1] at hf; exact BState.noConfusion hf
    | step_look_start hf hnext =>
      rw [h1] at hf
      injection hf with hnxt
      subst hnxt
      cases hnext with
      | step_empty hf' _ => rw [h0] at hf'; exact BState.noConfusion hf'
      | step_look_start hf' _ => rw [h0] at hf'; exact BState.noConfusion hf'
      | step_look_end hf' _ => rw [h0] at hf'; exact BState.noConfusion hf'
      | step_match hf' => rw [h0] at hf'; exact BState.noConfusion hf'
      | step_range hf' _ _ _ => rw [h0] at hf'; exact BState.noConfusion hf'
      | step_union hf' ht hnext' =>
        rw [h0] at hf'
        injection hf' with halts
        subst halts
        obtain ⟨q, hq, hcq⟩ := hH.mem_left ht
        rw [chain_sound hcq h3 h2 hnext']
        exact hq
  · intro hw
    obtain ⟨t, ht, hct⟩ := hH.mem_right hw
    exact .step_look_start h1 (.step_union h0 ht (chain_complete hct h3 h2 true))

/-- **C7**.  For every pattern `p` with `|p| < 8`, the automaton built by
`anagram(p)` accepts `s` iff `sort(s) = sort(p)` — exactly the permutations
of `p`'s characters. -/
theorem anagram_dfa_permutations (p : Str) (_hp : p.length < 8) (w : Str) :
    NAccepts (anagramBuild p).1.states true (anagramBuild p).2 w
      ↔ sortBytes w = sortBytes p := by
  rw [anagramBuild_eq]
  rw [sortBytes_eq_iff_perm]
  rw [← List.mem_permutations]
  exact anagram_lang p w

/-- Witness for `anagram_dfa_permutations` at `p = "ab"`, `w = "ba"`. -/
theorem anagram_dfa_permutations_witness :
    ([97, 98] : Str).length < 8
    ∧ (NAccepts (anagramBuild [97, 98]).1.states true (anagramBuild [97, 98]).2 [98, 97]
        ↔ sortBytes [98, 97] = sortBytes [97, 98]) :=
  ⟨by decide, anagram_dfa_permutations [97, 98] (by decide) [98, 97]⟩

end Grumpr
